import Mathlib

/-!
Verification of the task-graph execution engine in `mergekit/graph.py`.

Tasks are represented by natural-number identifiers; a `TaskGraph` supplies,
for each identifier, the data the Python `Task` contract exposes
(`arguments`, `execute`, `priority`, `group_label`, `uses_accelerator`)
together with the two device-movement operations of the `Executor`
(`_move_tensors` to the math device and to the storage device), which are
opaque value transformations here since tensor contents are not at issue.
Python dicts are modelled as insertion-ordered association lists, Python
sets as insertion-ordered duplicate-free lists, and the unbounded `while`
loop of `Executor._build_dependencies` is given explicit fuel.  The call to
`networkx.lexicographical_topological_sort` is embedded by its defining
algorithm: Kahn's algorithm over the edge list where, at every step, the
node minimising `(key node, insertion position)` among all ready nodes is
emitted, and a leftover node signals a cycle (`NetworkXUnfeasible`).
-/

namespace Mergekit

/-- Association-list lookup, first match wins (Python dict `d[k]` / `d.get(k)`). -/
def lookupA {β : Type _} : List (Nat × β) → Nat → Option β
  | [], _ => none
  | (k, v) :: rest, t => if k = t then some v else lookupA rest t

/-- Python dict assignment `d[k] = v`: replace in place if the key exists,
otherwise append (insertion order is preserved). -/
def setA {β : Type _} : List (Nat × β) → Nat → β → List (Nat × β)
  | [], k, v => [(k, v)]
  | (k0, v0) :: rest, k, v =>
    if k0 = k then (k, v) :: rest else (k0, v0) :: setA rest k v

/-- Python `set.add`: append the element unless already present. -/
def addNew (l : List Nat) (x : Nat) : List Nat := if x ∈ l then l else l ++ [x]

/-- Build a Python set from a list of elements, keeping first occurrences. -/
def dedupList (l : List Nat) : List Nat := l.foldl addNew []

/-- The task environment: what `mergekit/graph.py` requires of `Task`
instances plus the `Executor` device-movement operations.  `args t` is the
ordered `arguments()` dict of task `t` (argument name, dependency task);
`exec t` is `execute` receiving the resolved keyword arguments in the same
order; `priority`, `groupLabel` and `usesAccelerator` are the scheduling
hints.  `moveMath`/`moveStorage` model `_move_tensors` to `math_device` and
`storage_device`. -/
structure TaskGraph (V : Type) where
  args : Nat → List (String × Nat)
  exec : Nat → List (String × V) → V
  priority : Nat → Int
  groupLabel : Nat → Option String
  usesAccelerator : Nat → Bool
  moveMath : V → V
  moveStorage : V → V

/-- The dependency ids of a task: `task.arguments().values()` in order. -/
def argIds {V : Type} (G : TaskGraph V) (t : Nat) : List Nat :=
  (G.args t).map Prod.snd

/-- The work-stack loop of `Executor._build_dependencies`.  The Python list
`to_process` pops from the tail, so it is modelled head-first: the deps of a
processed child are pushed reversed (last argument is popped first).  A child
already recorded is skipped; a cached child is recorded with an empty
dependency set and not descended into; otherwise its argument set is recorded
and its arguments are pushed.  Fuel `none` means the loop was cut short. -/
def buildDepsLoop {V : Type} (G : TaskGraph V) (cachedKeys : List Nat) :
    Nat → List Nat → List (Nat × List Nat) → Option (List (Nat × List Nat))
  | _, [], acc => some acc
  | 0, _ :: _, _ => none
  | fuel + 1, child :: rest, acc =>
    if (lookupA acc child).isSome then buildDepsLoop G cachedKeys fuel rest acc
    else if child ∈ cachedKeys then
      buildDepsLoop G cachedKeys fuel rest (acc ++ [(child, [])])
    else
      buildDepsLoop G cachedKeys fuel ((argIds G child).reverse ++ rest)
        (acc ++ [(child, dedupList (argIds G child))])

/-- `Executor._build_dependencies(targets)`: `to_process = list(targets)` and
`pop()` takes the last element, so the initial head-first stack is the
reversed target list. -/
def buildDeps {V : Type} (G : TaskGraph V) (cachedKeys : List Nat) (fuel : Nat)
    (targets : List Nat) : Option (List (Nat × List Nat)) :=
  buildDepsLoop G cachedKeys fuel targets.reverse []

/-- A node of the scheduling graph: a real task or the synthetic
`DUMMY_TASK_VALUE` root. -/
inductive GNode where
  | task (t : Nat)
  | dummy
deriving DecidableEq

/-- Position of a node in the `node_values` list (`node_indices[n]`);
meaningful only when the node is present. -/
def idxOfG : List GNode → GNode → Nat
  | [], _ => 0
  | x :: xs, n => if x = n then 0 else idxOfG xs n + 1

/-- `Executor._make_schedule`'s `_index`: return the node's index, extending
`node_values` when the node is new. -/
def gIndex (nv : List GNode) (n : GNode) : Nat × List GNode :=
  if n ∈ nv then (idxOfG nv n, nv) else (nv.length, nv ++ [n])

/-- Append the edges `(_index(dep), _index(node))` for all deps of one node. -/
def addDepEdges (node : Nat) :
    List Nat → List (Nat × Nat) × List GNode → List (Nat × Nat) × List GNode
  | [], st => st
  | d :: ds, (es, nv) =>
    let p1 := gIndex nv (GNode.task d)
    let p2 := gIndex p1.2 (GNode.task node)
    addDepEdges node ds (es ++ [(p1.1, p2.1)], p2.2)

/-- The dependency-edge loop of `_make_schedule` over the collected map. -/
def addAllDeps :
    List (Nat × List Nat) → List (Nat × Nat) × List GNode →
      List (Nat × Nat) × List GNode
  | [], st => st
  | (node, ds) :: rest, st => addAllDeps rest (addDepEdges node ds st)

/-- The dummy-root loop: an edge from the dummy node to every target. -/
def addTargetEdges (dummyIdx : Nat) :
    List Nat → List (Nat × Nat) × List GNode → List (Nat × Nat) × List GNode
  | [], st => st
  | t :: ts, (es, nv) =>
    let p := gIndex nv (GNode.task t)
    addTargetEdges dummyIdx ts (es ++ [(dummyIdx, p.1)], p.2)

/-- The integer-indexed graph data built by `_make_schedule`: the edge list,
the `node_values` table and the dummy node's index. -/
structure EdgeData where
  edges : List (Nat × Nat)
  nv : List GNode
  dummyIdx : Nat

/-- Edge construction of `_make_schedule`: dependency edges in map order,
then `dummy_index = _index(DUMMY)`, then dummy edges to the targets. -/
def buildEdgeData (dm : List (Nat × List Nat)) (targets : List Nat) : EdgeData :=
  let st1 := addAllDeps dm ([], [])
  let pd := gIndex st1.2 GNode.dummy
  let st2 := addTargetEdges pd.1 targets (st1.1, pd.2)
  ⟨st2.1, st2.2, pd.1⟩

/-- The empty group label (`task.group_label() or ""`). -/
def emptyLabel : String := ""

/-- Python's `<` on strings: lexicographic comparison of the code-point
sequences. -/
def clLt : List Char → List Char → Prop
  | [], [] => False
  | [], _ :: _ => True
  | _ :: _, [] => False
  | a :: as, b :: bs => a < b ∨ (a = b ∧ clLt as bs)

def clLtDec : ∀ (l1 l2 : List Char), Decidable (clLt l1 l2)
  | [], [] => isFalse (fun h => h)
  | [], _ :: _ => isTrue trivial
  | _ :: _, [] => isFalse (fun h => h)
  | a :: as, b :: bs =>
    haveI := clLtDec as bs
    (inferInstance : Decidable (a < b ∨ (a = b ∧ clLt as bs)))

instance (l1 l2 : List Char) : Decidable (clLt l1 l2) := clLtDec l1 l2

/-- Python string comparison lifted to `String`. -/
def strLt (a b : String) : Prop := clLt a.data b.data

instance (a b : String) : Decidable (strLt a b) := clLtDec a.data b.data

/-- Strict lexicographic order on sort keys, as Python compares the tuples
`(group_label, -priority)`. -/
def keyLt (a b : String × Int) : Prop :=
  strLt a.1 b.1 ∨ (a.1 = b.1 ∧ a.2 < b.2)

instance (a b : String × Int) : Decidable (keyLt a b) := by
  unfold keyLt; exact inferInstance

/-- `_compare_key`: `("", 0)` for the dummy node, otherwise
`(task.group_label() or "", -task.priority())`. -/
def compareKey {V : Type} (G : TaskGraph V) (nv : List GNode) (n : Nat) :
    String × Int :=
  match nv[n]? with
  | some (GNode.task t) => ((G.groupLabel t).getD emptyLabel, - G.priority t)
  | _ => (emptyLabel, 0)

/-- The nodes of `networkx.DiGraph(edge_tups)` in insertion order: for each
edge the source is added first, then the target, each only on first sight. -/
def nodesOf (edges : List (Nat × Nat)) : List Nat :=
  edges.foldl (fun ns e => addNew (addNew ns e.1) e.2) []

/-- A node is ready when it is not yet emitted and all its predecessors are
(in networkx terms: its entry in `indegree_map` has reached zero, so it sits
in the `zero_indegree` heap). -/
def isReady (edges : List (Nat × Nat)) (processed : List Nat) (n : Nat) : Prop :=
  n ∉ processed ∧ ∀ e ∈ edges, e.2 = n → e.1 ∈ processed

instance (edges : List (Nat × Nat)) (processed : List Nat) (n : Nat) :
    Decidable (isReady edges processed n) := by
  unfold isReady; exact inferInstance

/-- The heap contents at a pop: all ready nodes, in node insertion order. -/
def readySet (edges : List (Nat × Nat)) (processed : List Nat) : List Nat :=
  (nodesOf edges).filter (fun n => decide (isReady edges processed n))

/-- `heapq.heappop` on tuples `(key(node), nodeid_map[node], node)`: the
candidate minimising the key, ties resolved to the earliest-inserted node
(the candidate list is in insertion order, and only a strictly smaller key
replaces the current best). -/
def pickMin (key : Nat → String × Int) : List Nat → Option Nat
  | [] => none
  | c :: cs =>
    some (cs.foldl (fun b x => if keyLt (key x) (key b) then x else b) c)

/-- The main loop of `networkx.lexicographical_topological_sort`: repeatedly
pop the minimal ready node and emit it; when no node is ready, succeed if all
nodes were emitted and otherwise fail (`NetworkXUnfeasible`: the graph
contains a cycle). -/
def kahnLoop (edges : List (Nat × Nat)) (key : Nat → String × Int) :
    Nat → List Nat → Option (List Nat)
  | 0, _ => none
  | fuel + 1, processed =>
    match pickMin key (readySet edges processed) with
    | none =>
      if ∀ n ∈ nodesOf edges, n ∈ processed then some processed else none
    | some n => kahnLoop edges key fuel (processed ++ [n])

/-- `networkx.lexicographical_topological_sort(graph, key)`: `none` models the
`NetworkXUnfeasible` cycle error. -/
def lexTopoSort (edges : List (Nat × Nat)) (key : Nat → String × Int) :
    Option (List Nat) :=
  kahnLoop edges key ((nodesOf edges).length + 1) []

/-- The final filter of `_make_schedule`: drop the dummy index, map indices
back to tasks, and drop tasks present in the cached-values mapping. -/
def nodeTask (nv : List GNode) (cachedKeys : List Nat) (dummyIdx : Nat)
    (i : Nat) : Option Nat :=
  if i = dummyIdx then none
  else match nv[i]? with
    | some (GNode.task t) => if t ∈ cachedKeys then none else some t
    | _ => none

/-- `Executor._make_schedule` given the already-collected dependency map:
build the integer graph, lexicographically topologically sort it, and filter.
`none` models the fatal cycle error raised during construction. -/
def scheduleOf {V : Type} (G : TaskGraph V) (targets cachedKeys : List Nat)
    (dm : List (Nat × List Nat)) : Option (List Nat) :=
  (lexTopoSort (buildEdgeData dm targets).edges
      (compareKey G (buildEdgeData dm targets).nv)).map
    (fun order => order.filterMap
      (nodeTask (buildEdgeData dm targets).nv cachedKeys
        (buildEdgeData dm targets).dummyIdx))

/-- `self.dependencies.get(task, [])` as used by `run`. -/
def depsOfDM (dm : List (Nat × List Nat)) (t : Nat) : List Nat :=
  (lookupA dm t).getD []

/-- `if key not in d: d[key] = v` on the last-use dict. -/
def insIfAbsent (m : List (Nat × Nat)) (k v : Nat) : List (Nat × Nat) :=
  if (lookupA m k).isSome then m else m ++ [(k, v)]

/-- The reverse pass of `run` over `reversed(list(enumerate(self.schedule)))`:
`lastUseLoop sched depsOf n m` processes indices `n-1, n-2, ..., 0`, at each
index first recording the index for each dependency of the scheduled task and
then for the task itself, keeping existing entries. -/
def lastUseLoop (sched : List Nat) (depsOf : Nat → List Nat) :
    Nat → List (Nat × Nat) → List (Nat × Nat)
  | 0, m => m
  | n + 1, m =>
    let task := sched.getD n 0
    let m1 := (depsOf task).foldl (fun acc d => insIfAbsent acc d n) m
    lastUseLoop sched depsOf n (insIfAbsent m1 task n)

/-- The complete `last_use_index` dict of `run`: the reverse pass, then every
cached task not referenced by the schedule gets index `len(schedule) + 1`. -/
def lastUseIndex (sched : List Nat) (depsOf : Nat → List Nat)
    (cachedKeys : List Nat) : List (Nat × Nat) :=
  cachedKeys.foldl (fun m t => insIfAbsent m t (sched.length + 1))
    (lastUseLoop sched depsOf sched.length [])

/-- `last_use_index` as a partial function on tasks. -/
def luFun (sched : List Nat) (depsOf : Nat → List Nat) (cachedKeys : List Nat) :
    Nat → Option Nat :=
  fun t => lookupA (lastUseIndex sched depsOf cachedKeys) t

/-- The run-scoped state of `Executor.run`: the value store and the pairs
yielded so far. -/
structure ExecState (V : Type) where
  values : List (Nat × V)
  emitted : List (Nat × V)
deriving DecidableEq

/-- Failures of the main pass: `values[dep]` raising `KeyError` (the fatal
missing-value invariant violation), and the two other dict lookups of the
loop, which the invariants prove unreachable. -/
inductive RunErr where
  | missingValue (dep : Nat)
  | missingLastUse
  | missingYield
deriving DecidableEq

instance {ε α : Type _} [DecidableEq ε] [DecidableEq α] :
    DecidableEq (Except ε α) := fun a b =>
  match a, b with
  | Except.error e1, Except.error e2 =>
    match decEq e1 e2 with
    | isTrue h => isTrue (by rw [h])
    | isFalse h => isFalse (fun hc => h (by injection hc))
  | Except.error _, Except.ok _ => isFalse (fun hc => Except.noConfusion hc)
  | Except.ok _, Except.error _ => isFalse (fun hc => Except.noConfusion hc)
  | Except.ok v1, Except.ok v2 =>
    match decEq v1 v2 with
    | isTrue h => isTrue (by rw [h])
    | isFalse h => isFalse (fun hc => h (by injection hc))

/-- Resolution of `task.arguments()` against the value store: each dependency
value must be present, and is moved to the math device when the task uses the
accelerator. -/
def resolveArgs {V : Type} (G : TaskGraph V) (store : List (Nat × V))
    (useMath : Bool) : List (String × Nat) → Except RunErr (List (String × V))
  | [] => Except.ok []
  | (n, d) :: rest =>
    match lookupA store d with
    | none => Except.error (RunErr.missingValue d)
    | some v =>
      (resolveArgs G store useMath rest).map
        (fun tail => (n, if useMath then G.moveMath v else v) :: tail)

/-- One iteration of the main loop of `run` at schedule index `idx`: resolve
the arguments, execute, move the result to the storage device, store it,
yield `(task, values[task])` if the task is a target, then evict every stored
value whose last-use index is at most `idx`. -/
def execStep {V : Type} (G : TaskGraph V) (targets : List Nat)
    (lu : Nat → Option Nat) (idx task : Nat) (st : ExecState V) :
    Except RunErr (ExecState V) :=
  match resolveArgs G st.values (G.usesAccelerator task) (G.args task) with
  | Except.error e => Except.error e
  | Except.ok resolved =>
    let res := G.moveStorage (G.exec task resolved)
    let values1 := setA st.values task res
    match (if task ∈ targets then
            match lookupA values1 task with
            | some v => Except.ok (st.emitted ++ [(task, v)])
            | none => Except.error RunErr.missingYield
           else Except.ok st.emitted) with
    | Except.error e => Except.error e
    | Except.ok emitted1 =>
      if values1.all (fun p => (lu p.1).isSome) then
        Except.ok ⟨values1.filter (fun p => decide (idx < (lu p.1).getD 0)),
          emitted1⟩
      else Except.error RunErr.missingLastUse

/-- The main loop of `run` over `enumerate(self.schedule)`, starting at the
given index. -/
def execList {V : Type} (G : TaskGraph V) (targets : List Nat)
    (lu : Nat → Option Nat) : Nat → List Nat → ExecState V →
    Except RunErr (ExecState V)
  | _, [], st => Except.ok st
  | i, t :: rest, st =>
    match execStep G targets lu i t st with
    | Except.error e => Except.error e
    | Except.ok st1 => execList G targets lu (i + 1) rest st1

/-- The value store at the start of `run`: a fresh dict updated with the
caller's cached values (`values.update(self.cached_values)`). -/
def initState {V : Type} (cachedVals : List (Nat × V)) : ExecState V :=
  ⟨cachedVals, []⟩

/-- `Executor.run` driven to completion: last-use pre-pass, then the main
loop over the whole schedule. -/
def runMain {V : Type} (G : TaskGraph V) (targets : List Nat)
    (cachedVals : List (Nat × V)) (dm : List (Nat × List Nat))
    (sched : List Nat) : Except RunErr (ExecState V) :=
  execList G targets (luFun sched (depsOfDM dm) (cachedVals.map Prod.fst)) 0
    sched (initState cachedVals)

/-- `Executor.run` stopped after the first `i` schedule steps: the state a
consumer of the generator observes between steps. -/
def runUpTo {V : Type} (G : TaskGraph V) (targets : List Nat)
    (cachedVals : List (Nat × V)) (dm : List (Nat × List Nat))
    (sched : List Nat) (i : Nat) : Except RunErr (ExecState V) :=
  execList G targets (luFun sched (depsOfDM dm) (cachedVals.map Prod.fst)) 0
    (sched.take i) (initState cachedVals)

/-- The tasks reachable from the targets without descending past a cached
task: what `_build_dependencies` visits. -/
inductive Reaches {V : Type} (G : TaskGraph V) (cachedKeys targets : List Nat) :
    Nat → Prop where
  | target {t : Nat} : t ∈ targets → Reaches G cachedKeys targets t
  | child {t d : Nat} : Reaches G cachedKeys targets t → t ∉ cachedKeys →
      d ∈ argIds G t → Reaches G cachedKeys targets d

/-- The dependency relation the Executor collects: `d` is a declared argument
of the reachable non-cached task `t`. -/
def depEdge {V : Type} (G : TaskGraph V) (cachedKeys targets : List Nat)
    (d t : Nat) : Prop :=
  Reaches G cachedKeys targets t ∧ t ∉ cachedKeys ∧ d ∈ argIds G t

/-- Largest `i < n` satisfying `p`. -/
def findMaxIdx (p : Nat → Bool) : Nat → Option Nat
  | 0 => none
  | n + 1 => if p n then some n else findMaxIdx p n

/-- `G` with every task's execute operation replaced: used to state that
schedule construction never invokes any execute operation. -/
def withExec {V : Type} (G : TaskGraph V)
    (e : Nat → List (String × V) → V) : TaskGraph V :=
  TaskGraph.mk G.args e G.priority G.groupLabel G.usesAccelerator
    G.moveMath G.moveStorage

/-- Linear chain A=0 <- B=1 <- C=2 <- D=3; executing task `t` returns the sum
of its argument values plus `10 * t`. -/
def GChain : TaskGraph Nat :=
  ⟨fun t => match t with
    | 1 => [("x", 0)]
    | 2 => [("x", 1)]
    | 3 => [("x", 2)]
    | _ => [],
   fun t vs => (vs.map Prod.snd).foldl (fun a b => a + b) 0 + 10 * t,
   fun _ => 0, fun _ => none, fun _ => false, id, id⟩

/-- Fan-out: B=1 and C=2 each depend only on A=0. -/
def GFan : TaskGraph Nat :=
  ⟨fun t => match t with
    | 1 => [("a", 0)]
    | 2 => [("a", 0)]
    | _ => [],
   fun t vs => (vs.map Prod.snd).foldl (fun a b => a + b) 0 + 10 * t,
   fun _ => 0, fun _ => none, fun _ => false, id, id⟩

/-- Cached-input scenario: B=1 computes its argument plus one; A=0 computes
the poison value 999, so any accidental execution of A would be visible. -/
def GCachedGraph : TaskGraph Nat :=
  ⟨fun t => match t with
    | 1 => [("a", 0)]
    | _ => [],
   fun t vs => match t with
    | 1 => (vs.map Prod.snd).foldl (fun a b => a + b) 0 + 1
    | _ => 999,
   fun _ => 0, fun _ => none, fun _ => false, id, id⟩

/-- Scheduling hints: leaves X=0 with priority 1 and Y=1 with priority 5,
both depended on by target Z=2; no group labels. -/
def GPrio : TaskGraph Nat :=
  ⟨fun t => match t with
    | 2 => [("x", 0), ("y", 1)]
    | _ => [],
   fun _ _ => 0,
   fun t => match t with
    | 0 => 1
    | 1 => 5
    | _ => 0,
   fun _ => none, fun _ => false, id, id⟩

/-- Tie scenario: leaf A=0 with the default key and target B=1 depending on
it, so A's node and the dummy root carry the same sort key. -/
def GTie : TaskGraph Nat :=
  ⟨fun t => match t with
    | 1 => [("a", 0)]
    | _ => [],
   fun _ _ => 0, fun _ => 0, fun _ => none, fun _ => false, id, id⟩

/-- Labelled leaf: task 0 carries group label "a" (sorting strictly after
the dummy root's empty label); target 1 depends on it. -/
def GLab : TaskGraph Nat :=
  ⟨fun t => match t with
    | 1 => [("a", 0)]
    | _ => [],
   fun _ _ => 0, fun _ => 0,
   fun t => match t with
    | 0 => some "a"
    | _ => none,
   fun _ => false, id, id⟩

/-- A single leaf task computing 42. -/
def GLeaf : TaskGraph Nat :=
  ⟨fun _ => [], fun _ _ => 42, fun _ => 0, fun _ => none, fun _ => false,
   id, id⟩

/-- A two-task cycle: 0 depends on 1 and 1 depends on 0. -/
def GCycle : TaskGraph Nat :=
  ⟨fun t => match t with
    | 0 => [("x", 1)]
    | 1 => [("y", 0)]
    | _ => [],
   fun _ _ => 0, fun _ => 0, fun _ => none, fun _ => false, id, id⟩

/-- The edge relation of the integer graph. -/
def edgeRel (edges : List (Nat × Nat)) (a b : Nat) : Prop := (a, b) ∈ edges

/-- Invariant of the Kahn loop: the emitted list has no duplicates, stays
inside the graph's node set, and every edge into an emitted node comes from a
node emitted strictly earlier. -/
structure KInv (edges : List (Nat × Nat)) (processed : List Nat) : Prop where
  nodup : processed.Nodup
  subset : ∀ p ∈ processed, p ∈ nodesOf edges
  closed : ∀ i (hi : i < processed.length), ∀ e ∈ edges,
    e.2 = processed[i] → e.1 ∈ processed.take i

/-- Eager version of `Option.orElse`, for stating dict-priority lemmas. -/
def oElse : Option Nat → Option Nat → Option Nat
  | some v, _ => some v
  | none, b => b

/-- Whether schedule index `i` references task `t`: `t` is a recorded
dependency of the task at `i`, or is that task itself. -/
def luProp (sched : List Nat) (depsOf : Nat → List Nat) (t : Nat)
    (i : Nat) : Bool :=
  decide (t ∈ depsOf (sched.getD i 0)) || decide (sched.getD i 0 = t)

/-! ### Association lists and other helpers -/

theorem lookupA_isSome_iff {β : Type _} (l : List (Nat × β)) (t : Nat) :
    (lookupA l t).isSome ↔ t ∈ l.map Prod.fst := by
  induction l with
  | nil => simp [lookupA]
  | cons p rest ih =>
    obtain ⟨k, v⟩ := p
    by_cases h : k = t
    · subst h; simp [lookupA]
    · simp [lookupA, h, ih, Ne.symm h]

theorem lookupA_mem {β : Type _} {l : List (Nat × β)} {t : Nat} {v : β}
    (h : lookupA l t = some v) : (t, v) ∈ l := by
  induction l with
  | nil => simp [lookupA] at h
  | cons p rest ih =>
    obtain ⟨k, w⟩ := p
    by_cases hk : k = t
    · subst hk
      simp [lookupA] at h
      simp [h]
    · simp [lookupA, hk] at h
      simp [ih h]

theorem lookupA_filter_key {β : Type _} (p : Nat → Bool) (l : List (Nat × β))
    (t : Nat) :
    lookupA (l.filter (fun x => p x.1)) t =
      if p t then lookupA l t else none := by
  induction l with
  | nil => simp [lookupA]
  | cons q rest ih =>
    obtain ⟨k, v⟩ := q
    by_cases hk : k = t
    · subst hk
      by_cases hp : p k <;> simp [List.filter_cons, hp, lookupA, ih]
    · by_cases hp : p k <;> simp [List.filter_cons, hp, lookupA, hk, ih]

theorem lookupA_setA {β : Type _} (l : List (Nat × β)) (k : Nat) (v : β)
    (t : Nat) :
    lookupA (setA l k v) t = if k = t then some v else lookupA l t := by
  induction l with
  | nil => simp [setA, lookupA]
  | cons q rest ih =>
    obtain ⟨k0, v0⟩ := q
    by_cases h0 : k0 = k
    · subst h0
      by_cases ht : k0 = t <;> simp [setA, lookupA, ht]
    · by_cases ht : k0 = t
      · subst ht
        have hk : ¬ (k = k0) := fun h => h0 h.symm
        simp [setA, h0, lookupA, hk]
      · simp [setA, h0, lookupA, ht, ih]

theorem mem_addNew {l : List Nat} {x y : Nat} :
    x ∈ addNew l y ↔ x ∈ l ∨ x = y := by
  unfold addNew
  by_cases h : y ∈ l
  · simp only [if_pos h]
    constructor
    · exact Or.inl
    · rintro (hx | rfl) <;> [exact hx; exact h]
  · simp [if_neg h]

theorem nodup_addNew {l : List Nat} {y : Nat} (h : l.Nodup) :
    (addNew l y).Nodup := by
  unfold addNew
  by_cases hy : y ∈ l
  · simpa [hy]
  · simp only [if_neg hy]
    exact List.Nodup.append h (List.nodup_singleton y) (by simpa using hy)

theorem isPrefix_addNew (l : List Nat) (y : Nat) : l <+: addNew l y := by
  unfold addNew
  by_cases hy : y ∈ l
  · simp [hy]
  · simp only [if_neg hy]
    exact ⟨[y], rfl⟩

theorem mem_foldl_addNew (l acc : List Nat) (x : Nat) :
    x ∈ l.foldl addNew acc ↔ x ∈ acc ∨ x ∈ l := by
  induction l generalizing acc with
  | nil => simp
  | cons y ys ih =>
    simp only [List.foldl_cons, ih, mem_addNew, List.mem_cons]
    tauto

theorem mem_dedupList {l : List Nat} {x : Nat} : x ∈ dedupList l ↔ x ∈ l := by
  unfold dedupList
  simp [mem_foldl_addNew]

theorem nodup_foldl_addNew (l : List Nat) (acc : List Nat) (h : acc.Nodup) :
    (l.foldl addNew acc).Nodup := by
  induction l generalizing acc with
  | nil => simpa
  | cons y ys ih => exact ih _ (nodup_addNew h)

theorem nodup_dedupList (l : List Nat) : (dedupList l).Nodup :=
  nodup_foldl_addNew l [] List.nodup_nil

theorem findMaxIdx_eq_some {p : Nat → Bool} {n m : Nat}
    (h : findMaxIdx p n = some m) :
    m < n ∧ p m = true ∧ ∀ k, m < k → k < n → p k = false := by
  induction n with
  | zero => simp [findMaxIdx] at h
  | succ n ih =>
    unfold findMaxIdx at h
    by_cases hp : p n = true
    · simp [hp] at h
      subst h
      exact ⟨Nat.lt_succ_self _, hp, fun k hk1 hk2 => by omega⟩
    · simp [hp] at h
      obtain ⟨h1, h2, h3⟩ := ih h
      refine ⟨Nat.lt_succ_of_lt h1, h2, fun k hk1 hk2 => ?_⟩
      rcases Nat.lt_or_ge k n with hk | hk
      · exact h3 k hk1 hk
      · have : k = n := by omega
        subst this
        simpa using hp

theorem findMaxIdx_eq_none {p : Nat → Bool} {n : Nat}
    (h : findMaxIdx p n = none) : ∀ k < n, p k = false := by
  induction n with
  | zero => omega
  | succ n ih =>
    unfold findMaxIdx at h
    by_cases hp : p n = true
    · simp [hp] at h
    · simp [hp] at h
      intro k hk
      rcases Nat.lt_or_ge k n with hk' | hk'
      · exact ih h k hk'
      · have : k = n := by omega
        subst this
        simpa using hp

theorem findMaxIdx_ge {p : Nat → Bool} {n m : Nat} (hm : m < n)
    (hp : p m = true) : ∃ r, findMaxIdx p n = some r ∧ m ≤ r := by
  induction n with
  | zero => omega
  | succ n ih =>
    unfold findMaxIdx
    by_cases hn : p n = true
    · exact ⟨n, by simp [hn], by omega⟩
    · rcases Nat.lt_or_ge m n with hm' | hm'
      · obtain ⟨r, hr1, hr2⟩ := ih hm'
        exact ⟨r, by simp [hn, hr1], hr2⟩
      · have : m = n := by omega
        subst this
        simp [hp] at hn

/-! ### The sort-key order -/

theorem clLt_irrefl : ∀ (l : List Char), ¬ clLt l l := by
  intro l
  induction l with
  | nil => exact fun h => h
  | cons a as ih =>
    intro h
    rcases h with h1 | ⟨_, h2⟩
    · exact lt_irrefl a h1
    · exact ih h2

theorem clLt_trans : ∀ (l1 l2 l3 : List Char),
    clLt l1 l2 → clLt l2 l3 → clLt l1 l3 := by
  intro l1
  induction l1 with
  | nil =>
    intro l2 l3 h12 h23
    cases l2 with
    | nil => exact absurd h12 (clLt_irrefl [])
    | cons b bs =>
      cases l3 with
      | nil => exact absurd h23 (fun h => h)
      | cons c cs => exact trivial
  | cons a as ih =>
    intro l2 l3 h12 h23
    cases l2 with
    | nil => exact absurd h12 (fun h => h)
    | cons b bs =>
      cases l3 with
      | nil => exact absurd h23 (fun h => h)
      | cons c cs =>
        rcases h12 with h1 | ⟨he1, ht1⟩ <;> rcases h23 with h2 | ⟨he2, ht2⟩
        · exact Or.inl (lt_trans h1 h2)
        · exact Or.inl (he2 ▸ h1)
        · exact Or.inl (he1 ▸ h2)
        · exact Or.inr ⟨he1.trans he2, ih bs cs ht1 ht2⟩

theorem clLt_trichotomy : ∀ (l1 l2 : List Char),
    clLt l1 l2 ∨ l1 = l2 ∨ clLt l2 l1 := by
  intro l1
  induction l1 with
  | nil =>
    intro l2
    cases l2 with
    | nil => exact Or.inr (Or.inl rfl)
    | cons b bs => exact Or.inl trivial
  | cons a as ih =>
    intro l2
    cases l2 with
    | nil => exact Or.inr (Or.inr trivial)
    | cons b bs =>
      rcases lt_trichotomy a b with h | h | h
      · exact Or.inl (Or.inl h)
      · rcases ih bs with h2 | h2 | h2
        · exact Or.inl (Or.inr ⟨h, h2⟩)
        · exact Or.inr (Or.inl (by rw [h, h2]))
        · exact Or.inr (Or.inr (Or.inr ⟨h.symm, h2⟩))
      · exact Or.inr (Or.inr (Or.inl h))

theorem strLt_irrefl (s : String) : ¬ strLt s s := clLt_irrefl s.data

theorem strLt_trans {a b c : String} (h1 : strLt a b) (h2 : strLt b c) :
    strLt a c := clLt_trans a.data b.data c.data h1 h2

theorem strLt_trichotomy (a b : String) : strLt a b ∨ a = b ∨ strLt b a := by
  rcases clLt_trichotomy a.data b.data with h | h | h
  · exact Or.inl h
  · refine Or.inr (Or.inl ?_)
    obtain ⟨da⟩ := a
    obtain ⟨db⟩ := b
    exact congrArg String.mk (by simpa using h)
  · exact Or.inr (Or.inr h)

theorem keyLt_irrefl (a : String × Int) : ¬ keyLt a a := by
  intro h
  rcases h with h1 | ⟨_, h2⟩
  · exact strLt_irrefl a.1 h1
  · exact lt_irrefl a.2 h2

theorem keyLt_trans {a b c : String × Int} (h1 : keyLt a b) (h2 : keyLt b c) :
    keyLt a c := by
  rcases h1 with h1 | ⟨h1e, h1i⟩ <;> rcases h2 with h2 | ⟨h2e, h2i⟩
  · exact Or.inl (strLt_trans h1 h2)
  · exact Or.inl (h2e ▸ h1)
  · exact Or.inl (h1e ▸ h2)
  · exact Or.inr ⟨h1e.trans h2e, lt_trans h1i h2i⟩

theorem keyLt_trichotomy (a b : String × Int) :
    keyLt a b ∨ a = b ∨ keyLt b a := by
  rcases strLt_trichotomy a.1 b.1 with h | h | h
  · exact Or.inl (Or.inl h)
  · rcases lt_trichotomy a.2 b.2 with h2 | h2 | h2
    · exact Or.inl (Or.inr ⟨h, h2⟩)
    · exact Or.inr (Or.inl (Prod.ext h h2))
    · exact Or.inr (Or.inr (Or.inr ⟨h.symm, h2⟩))
  · exact Or.inr (Or.inr (Or.inl h))

theorem keyLt_asymm {a b : String × Int} (h : keyLt a b) : ¬ keyLt b a :=
  fun h2 => keyLt_irrefl a (keyLt_trans h h2)

theorem keyLt_of_not_of_keyLt {x b r : String × Int} (h1 : ¬ keyLt x b)
    (h2 : keyLt x r) : keyLt b r := by
  rcases keyLt_trichotomy b x with h | h | h
  · exact keyLt_trans h h2
  · exact h ▸ h2
  · exact absurd h h1

/-! ### pickMin -/

theorem pickGo_spec (key : Nat → String × Int) (xs : List Nat) (b : Nat) :
    (xs.foldl (fun b x => if keyLt (key x) (key b) then x else b) b = b ∨
      xs.foldl (fun b x => if keyLt (key x) (key b) then x else b) b ∈ xs) ∧
    ∀ x ∈ b :: xs,
      ¬ keyLt (key x)
        (key (xs.foldl (fun b x => if keyLt (key x) (key b) then x else b) b)) := by
  induction xs generalizing b with
  | nil =>
    refine ⟨Or.inl rfl, ?_⟩
    intro x hx
    simp at hx
    subst hx
    exact keyLt_irrefl _
  | cons y ys ih =>
    simp only [List.foldl_cons]
    by_cases hy : keyLt (key y) (key b)
    · simp only [if_pos hy]
      obtain ⟨hmem, hmin⟩ := ih y
      constructor
      · rcases hmem with h | h
        · exact Or.inr (by simp [h])
        · exact Or.inr (by simp [h])
      · intro x hx
        rcases List.mem_cons.mp hx with rfl | hx2
        · intro hcon
          exact hmin y (by simp)
            (keyLt_trans hy hcon)
        · rcases List.mem_cons.mp hx2 with rfl | hx3
          · exact hmin x (by simp)
          · exact hmin x (by simp [hx3])
    · simp only [if_neg hy]
      obtain ⟨hmem, hmin⟩ := ih b
      constructor
      · rcases hmem with h | h
        · exact Or.inl h
        · exact Or.inr (by simp [h])
      · intro x hx
        rcases List.mem_cons.mp hx with rfl | hx2
        · exact hmin x (by simp)
        · rcases List.mem_cons.mp hx2 with rfl | hx3
          · intro hcon
            exact hmin b (by simp) (keyLt_of_not_of_keyLt hy hcon)
          · exact hmin x (by simp [hx3])

theorem pickMin_spec {key : Nat → String × Int} {l : List Nat} {m : Nat}
    (h : pickMin key l = some m) :
    m ∈ l ∧ ∀ x ∈ l, ¬ keyLt (key x) (key m) := by
  match l with
  | [] => simp [pickMin] at h
  | c :: cs =>
    simp only [pickMin, Option.some_inj] at h
    obtain ⟨hmem, hmin⟩ := pickGo_spec key cs c
    subst h
    constructor
    · rcases hmem with h | h
      · rw [h]; exact List.mem_cons_self c cs
      · exact List.mem_cons_of_mem c h
    · exact hmin

theorem pickMin_eq_none {key : Nat → String × Int} {l : List Nat} :
    pickMin key l = none ↔ l = [] := by
  cases l <;> simp [pickMin]

/-! ### Correctness of the lexicographical topological sort -/

theorem mem_nodesOf {edges : List (Nat × Nat)} {n : Nat} :
    n ∈ nodesOf edges ↔ ∃ e ∈ edges, n = e.1 ∨ n = e.2 := by
  unfold nodesOf
  have gen : ∀ (es : List (Nat × Nat)) (acc : List Nat),
      n ∈ es.foldl (fun ns e => addNew (addNew ns e.1) e.2) acc ↔
        n ∈ acc ∨ ∃ e ∈ es, n = e.1 ∨ n = e.2 := by
    intro es
    induction es with
    | nil => simp
    | cons e rest ih =>
      intro acc
      simp only [List.foldl_cons, ih, mem_addNew, List.mem_cons]
      constructor
      · intro h
        aesop
      · intro h
        aesop
  simpa using gen edges []

theorem nodesOf_nodup (edges : List (Nat × Nat)) : (nodesOf edges).Nodup := by
  unfold nodesOf
  have gen : ∀ (es : List (Nat × Nat)) (acc : List Nat), acc.Nodup →
      (es.foldl (fun ns e => addNew (addNew ns e.1) e.2) acc).Nodup := by
    intro es
    induction es with
    | nil => intro acc h; simpa
    | cons e rest ih => intro acc h; exact ih _ (nodup_addNew (nodup_addNew h))
  exact gen edges [] List.nodup_nil

theorem mem_readySet {edges : List (Nat × Nat)} {processed : List Nat} {n : Nat} :
    n ∈ readySet edges processed ↔
      n ∈ nodesOf edges ∧ isReady edges processed n := by
  unfold readySet
  simp [List.mem_filter]

theorem edge_fst_mem_nodes {edges : List (Nat × Nat)} {e : Nat × Nat}
    (he : e ∈ edges) : e.1 ∈ nodesOf edges :=
  mem_nodesOf.mpr ⟨e, he, Or.inl rfl⟩

theorem edge_snd_mem_nodes {edges : List (Nat × Nat)} {e : Nat × Nat}
    (he : e ∈ edges) : e.2 ∈ nodesOf edges :=
  mem_nodesOf.mpr ⟨e, he, Or.inr rfl⟩

theorem KInv_nil (edges : List (Nat × Nat)) : KInv edges [] :=
  ⟨List.nodup_nil, by simp, by simp⟩

theorem mem_take_iff_get {α : Type _} {l : List α} {j : Nat} {x : α} :
    x ∈ l.take j ↔ ∃ i, i < j ∧ ∃ hi : i < l.length, l[i] = x := by
  rw [List.mem_take_iff_getElem]
  constructor
  · rintro ⟨i, hm, rfl⟩
    have h1 : i < j := lt_of_lt_of_le hm (min_le_left _ _)
    have h2 : i < l.length := lt_of_lt_of_le hm (min_le_right _ _)
    exact ⟨i, h1, h2, rfl⟩
  · rintro ⟨i, h1, h2, rfl⟩
    exact ⟨i, lt_min h1 h2, rfl⟩

theorem KInv_step {edges : List (Nat × Nat)} {processed : List Nat} {n : Nat}
    (hk : KInv edges processed) (hn : n ∈ readySet edges processed) :
    KInv edges (processed ++ [n]) := by
  obtain ⟨hmem, hnp, hpred⟩ :=
    (by simpa [mem_readySet, isReady] using hn :
      n ∈ nodesOf edges ∧ n ∉ processed ∧
        ∀ e ∈ edges, e.2 = n → e.1 ∈ processed)
  refine ⟨?_, ?_, ?_⟩
  · exact List.Nodup.append hk.nodup (List.nodup_singleton n) (by simpa using hnp)
  · intro p hp
    rcases List.mem_append.mp hp with h | h
    · exact hk.subset p h
    · simp at h; subst h; exact hmem
  · intro i hi e he h2
    simp only [List.length_append, List.length_singleton] at hi
    rcases Nat.lt_or_ge i processed.length with hil | hil
    · rw [List.getElem_append_left hil] at h2
      rw [List.take_append_of_le_length (Nat.le_of_lt hil)]
      exact hk.closed i hil e he h2
    · have hieq : i = processed.length := by omega
      subst hieq
      rw [List.getElem_append_right (Nat.le_refl _)] at h2
      simp at h2
      rw [List.take_append_of_le_length (Nat.le_refl _)]
      simpa using hpred e he h2

theorem kahnLoop_sound {edges : List (Nat × Nat)} {key : Nat → String × Int} :
    ∀ (fuel : Nat) (processed out : List Nat), KInv edges processed →
    kahnLoop edges key fuel processed = some out →
    KInv edges out ∧ processed <+: out ∧ (∀ n ∈ nodesOf edges, n ∈ out) ∧
    ∀ i (hi : i < out.length), processed.length ≤ i →
      out[i] ∈ readySet edges (out.take i) ∧
      ∀ c ∈ readySet edges (out.take i), ¬ keyLt (key c) (key out[i]) := by
  intro fuel
  induction fuel with
  | zero => intro processed out _ h; simp [kahnLoop] at h
  | succ fuel ih =>
    intro processed out hk h
    unfold kahnLoop at h
    cases hpick : pickMin key (readySet edges processed) with
    | none =>
      rw [hpick] at h
      by_cases hall : ∀ n ∈ nodesOf edges, n ∈ processed
      · rw [if_pos hall] at h
        injection h with h
        subst h
        refine ⟨hk, List.prefix_refl _, hall, ?_⟩
        intro i hi hle
        omega
      · rw [if_neg hall] at h
        exact absurd h (by simp)
    | some n =>
      rw [hpick] at h
      obtain ⟨hnr, hmin⟩ := pickMin_spec hpick
      obtain ⟨hk2, hpre, hall, hstep⟩ := ih _ _ (KInv_step hk hnr) h
      refine ⟨hk2, List.IsPrefix.trans (List.prefix_append _ _) hpre, hall, ?_⟩
      intro i hi hle
      rcases Nat.lt_or_ge i (processed.length + 1) with hlt | hge
      · have hieq : i = processed.length := by omega
        subst hieq
        obtain ⟨rest, hrest⟩ := hpre
        rw [List.append_assoc] at hrest
        subst hrest
        have htake :
            (processed ++ ([n] ++ rest)).take processed.length = processed := by
          rw [List.take_append_of_le_length (Nat.le_refl _), List.take_length]
        have hget : (processed ++ ([n] ++ rest))[processed.length] = n := by
          rw [List.getElem_append_right (Nat.le_refl processed.length)]
          simp
        rw [hget, htake]
        exact ⟨hnr, hmin⟩
      · have := hstep i hi (by simpa using hge)
        exact this

theorem length_le_of_nodup_subset {l1 l2 : List Nat} (h : l1.Nodup)
    (hs : l1 ⊆ l2) : l1.length ≤ l2.length :=
  (h.subperm hs).length_le

theorem kahnLoop_complete {edges : List (Nat × Nat)} {key : Nat → String × Int}
    (hacyc : ∀ n, ¬ Relation.TransGen (edgeRel edges) n n) :
    ∀ (fuel : Nat) (processed : List Nat), KInv edges processed →
    (nodesOf edges).length + 1 ≤ fuel + processed.length →
    ∃ out, kahnLoop edges key fuel processed = some out := by
  intro fuel
  induction fuel with
  | zero =>
    intro processed hk hlen
    exfalso
    have := length_le_of_nodup_subset hk.nodup (fun p hp => hk.subset p hp)
    omega
  | succ fuel ih =>
    intro processed hk hlen
    unfold kahnLoop
    cases hpick : pickMin key (readySet edges processed) with
    | some n =>
      obtain ⟨hnr, _⟩ := pickMin_spec hpick
      obtain ⟨out, hout⟩ := ih (processed ++ [n]) (KInv_step hk hnr)
        (by simp; omega)
      exact ⟨out, hout⟩
    | none =>
      have hready : readySet edges processed = [] := pickMin_eq_none.mp hpick
      by_cases hall : ∀ n ∈ nodesOf edges, n ∈ processed
      · exact ⟨processed, by rw [if_pos hall]⟩
      · exfalso
        push_neg at hall
        obtain ⟨m, hm, hmp⟩ := hall
        have hpred : ∀ u, u ∈ nodesOf edges → u ∉ processed →
            ∃ v, v ∈ nodesOf edges ∧ v ∉ processed ∧ edgeRel edges v u := by
          intro u hu hup
          by_contra hcon
          push_neg at hcon
          have hru : u ∈ readySet edges processed := by
            rw [mem_readySet]
            refine ⟨hu, hup, ?_⟩
            intro e he h2
            by_contra hnp2
            refine hcon e.1 (edge_fst_mem_nodes he) hnp2 ?_
            show (e.1, u) ∈ edges
            rw [← h2]
            simpa using he
          rw [hready] at hru
          simp at hru
        have hsub : ∀ u : {x // x ∈ nodesOf edges ∧ x ∉ processed},
            ∃ v : {x // x ∈ nodesOf edges ∧ x ∉ processed},
              edgeRel edges v.1 u.1 := by
          intro u
          obtain ⟨v, h1, h2, h3⟩ := hpred u.1 u.2.1 u.2.2
          exact ⟨⟨v, h1, h2⟩, h3⟩
        let g : Nat → {x // x ∈ nodesOf edges ∧ x ∉ processed} :=
          fun k => Nat.rec ⟨m, hm, hmp⟩
            (fun _ prev => Classical.choose (hsub prev)) k
        have hgstep : ∀ k, edgeRel edges (g (k + 1)).1 (g k).1 := by
          intro k
          exact Classical.choose_spec (hsub (g k))
        have hchain : ∀ i d,
            Relation.TransGen (edgeRel edges) (g (i + d + 1)).1 (g i).1 := by
          intro i d
          induction d with
          | zero => exact Relation.TransGen.single (hgstep i)
          | succ d ihd => exact Relation.TransGen.head (hgstep (i + d + 1)) ihd
        have hcard : (nodesOf edges).toFinset.card <
            (Finset.range ((nodesOf edges).length + 1)).card := by
          have := List.toFinset_card_le (nodesOf edges)
          rw [Finset.card_range]
          omega
        obtain ⟨a, ha, b, hb, hab, heq⟩ :=
          Finset.exists_ne_map_eq_of_card_lt_of_maps_to hcard
            (f := fun k => (g k).1)
            (fun a _ => by simpa [List.mem_toFinset] using (g a).2.1)
        rcases Nat.lt_or_ge a b with hlt | hge
        · have hc := hchain a (b - a - 1)
          rw [(by omega : a + (b - a - 1) + 1 = b)] at hc
          rw [← heq] at hc
          exact hacyc _ hc
        · have hlt2 : b < a := by omega
          have hc := hchain b (a - b - 1)
          rw [(by omega : b + (a - b - 1) + 1 = a)] at hc
          rw [heq] at hc
          exact hacyc _ hc

theorem lexTopoSort_complete {edges : List (Nat × Nat)}
    {key : Nat → String × Int}
    (hacyc : ∀ n, ¬ Relation.TransGen (edgeRel edges) n n) :
    ∃ out, lexTopoSort edges key = some out := by
  unfold lexTopoSort
  exact kahnLoop_complete hacyc _ [] (KInv_nil edges) (by simp)

theorem lexTopoSort_spec {edges : List (Nat × Nat)} {key : Nat → String × Int}
    {out : List Nat} (h : lexTopoSort edges key = some out) :
    out.Nodup ∧ (∀ n, n ∈ out ↔ n ∈ nodesOf edges) ∧
    ∀ i (hi : i < out.length),
      out[i] ∈ readySet edges (out.take i) ∧
      ∀ c ∈ readySet edges (out.take i), ¬ keyLt (key c) (key out[i]) := by
  obtain ⟨hk, _, hall, hstep⟩ := kahnLoop_sound _ _ _ (KInv_nil edges) h
  exact ⟨hk.nodup, fun n => ⟨fun hn => hk.subset n hn, hall n⟩,
    fun i hi => hstep i hi (by simp)⟩

theorem lexTopoSort_edge_before {edges : List (Nat × Nat)}
    {key : Nat → String × Int} {out : List Nat}
    (h : lexTopoSort edges key = some out) {e : Nat × Nat} (he : e ∈ edges) :
    ∀ j (hj : j < out.length), out[j] = e.2 →
      ∃ i, i < j ∧ ∃ hi : i < out.length, out[i] = e.1 := by
  obtain ⟨hk, _, hall, _⟩ := kahnLoop_sound _ _ _ (KInv_nil edges) h
  intro j hj hgj
  have := hk.closed j hj e he hgj.symm
  exact mem_take_iff_get.mp this

theorem transGen_first_step {r : Nat → Nat → Prop} {a c : Nat}
    (h : Relation.TransGen r a c) : ∃ b, r a b := by
  induction h with
  | single hr => exact ⟨_, hr⟩
  | tail _ _ ih => exact ih

theorem transGen_before {edges : List (Nat × Nat)} {key : Nat → String × Int}
    {out : List Nat} (h : lexTopoSort edges key = some out) :
    ∀ {u v : Nat}, Relation.TransGen (edgeRel edges) u v →
      ∀ j (hj : j < out.length), out[j] = v →
        ∃ i, i < j ∧ ∃ hi : i < out.length, out[i] = u := by
  intro u v htg
  induction htg with
  | single hr => exact fun j hj hgj => lexTopoSort_edge_before h hr j hj hgj
  | tail htg2 hr ih =>
    intro j hj hgj
    obtain ⟨k, hk1, hk2, hk3⟩ := lexTopoSort_edge_before h hr j hj hgj
    obtain ⟨i, hi1, hi2, hi3⟩ := ih k hk2 hk3
    exact ⟨i, by omega, hi2, hi3⟩

theorem lexTopoSort_cycle {edges : List (Nat × Nat)} {key : Nat → String × Int}
    {n : Nat} (hcyc : Relation.TransGen (edgeRel edges) n n) :
    lexTopoSort edges key = none := by
  cases h : lexTopoSort edges key with
  | none => rfl
  | some out =>
    exfalso
    obtain ⟨hnodup, hmem, _⟩ := lexTopoSort_spec h
    obtain ⟨b, hb⟩ := transGen_first_step hcyc
    have hn : n ∈ out := (hmem n).mpr (edge_fst_mem_nodes (e := (n, b)) hb)
    obtain ⟨j, hj, hgj⟩ := List.getElem_of_mem hn
    obtain ⟨i, hij, hi, hgi⟩ := transGen_before h hcyc j hj hgj
    have heq : out.get ⟨i, hi⟩ = out.get ⟨j, hj⟩ := by
      simp only [List.get_eq_getElem]
      rw [hgi, hgj]
    have := (List.Nodup.get_inj_iff hnodup).mp heq
    have : i = j := congrArg Fin.val this
    omega

theorem kahn_strict_first {edges : List (Nat × Nat)} {key : Nat → String × Int}
    {out : List Nat} (h : lexTopoSort edges key = some out) {i d r : Nat}
    (hd : d ∈ readySet edges (out.take i))
    (hr : r ∈ readySet edges (out.take i)) (hlt : keyLt (key d) (key r)) :
    ∀ j (hj : j < out.length), out[j] = r →
      ∃ k, k < j ∧ ∃ hk : k < out.length, out[k] = d := by
  intro j hj hgj
  simp only [mem_readySet, isReady] at hd hr
  obtain ⟨hdn, hdp, hdpred⟩ := hd
  obtain ⟨hrn, hrp, hrpred⟩ := hr
  have hij : i ≤ j := by
    by_contra hcon
    push_neg at hcon
    exact hrp (mem_take_iff_get.mpr ⟨j, hcon, hj, hgj⟩)
  by_cases hdin : d ∈ out.take j
  · exact mem_take_iff_get.mp hdin
  · exfalso
    have hd_ready : d ∈ readySet edges (out.take j) := by
      rw [mem_readySet]
      refine ⟨hdn, hdin, ?_⟩
      intro e he h2
      obtain ⟨p, hp1, hp2, hp3⟩ := mem_take_iff_get.mp (hdpred e he h2)
      exact mem_take_iff_get.mpr ⟨p, by omega, hp2, hp3⟩
    obtain ⟨_, _, hstep⟩ := lexTopoSort_spec h
    have hmin := (hstep j hj).2 d hd_ready
    rw [hgj] at hmin
    exact hmin hlt

/-! ### The dependency collector -/

theorem lookupA_eq_of_mem {β : Type _} {l : List (Nat × β)}
    (hnd : (l.map Prod.fst).Nodup) {k : Nat} {v : β} (h : (k, v) ∈ l) :
    lookupA l k = some v := by
  induction l with
  | nil => simp at h
  | cons p rest ih =>
    obtain ⟨k0, v0⟩ := p
    simp only [List.map_cons, List.nodup_cons] at hnd
    rcases List.mem_cons.mp h with h0 | h0
    · injection h0 with h1 h2
      subst h1; subst h2
      simp [lookupA]
    · have hk : k0 ≠ k := by
        intro hc
        subst hc
        exact hnd.1 (by simpa using List.mem_map_of_mem Prod.fst h0)
      simp [lookupA, hk]
      exact ih hnd.2 h0

theorem buildDepsLoop_props {V : Type} (G : TaskGraph V) (cached : List Nat) :
    ∀ (fuel : Nat) (stack : List Nat) (acc dm : List (Nat × List Nat)),
    buildDepsLoop G cached fuel stack acc = some dm →
    acc <+: dm ∧
    ((acc.map Prod.fst).Nodup → (dm.map Prod.fst).Nodup) ∧
    (∀ s ∈ stack, ∃ ds, (s, ds) ∈ dm) ∧
    (∀ k ds, (k, ds) ∈ dm → (k, ds) ∈ acc ∨
      ds = if k ∈ cached then [] else dedupList (argIds G k)) := by
  intro fuel
  induction fuel with
  | zero =>
    intro stack acc dm h
    cases stack with
    | nil =>
      simp only [buildDepsLoop, Option.some_inj] at h
      subst h
      exact ⟨List.prefix_refl _, id, by simp, fun k ds h => Or.inl h⟩
    | cons child rest => simp [buildDepsLoop] at h
  | succ fuel ih =>
    intro stack acc dm h
    cases stack with
    | nil =>
      simp only [buildDepsLoop, Option.some_inj] at h
      subst h
      exact ⟨List.prefix_refl _, id, by simp, fun k ds h => Or.inl h⟩
    | cons child rest =>
      rw [buildDepsLoop] at h
      by_cases hproc : (lookupA acc child).isSome
      · rw [if_pos hproc] at h
        obtain ⟨hpre, hnd, hstack, hent⟩ := ih rest acc dm h
        refine ⟨hpre, hnd, ?_, hent⟩
        intro s hs
        rcases List.mem_cons.mp hs with rfl | hs2
        · obtain ⟨ds0, hds0⟩ := Option.isSome_iff_exists.mp hproc
          exact ⟨ds0, hpre.subset (lookupA_mem hds0)⟩
        · exact hstack s hs2
      · rw [if_neg hproc] at h
        have hnotin : child ∉ acc.map Prod.fst := by
          rw [← lookupA_isSome_iff]
          simpa using hproc
        by_cases hc : child ∈ cached
        · rw [if_pos hc] at h
          obtain ⟨hpre, hnd, hstack, hent⟩ := ih rest (acc ++ [(child, [])]) dm h
          have hpre2 : acc <+: dm :=
            List.IsPrefix.trans (List.prefix_append _ _) hpre
          refine ⟨hpre2, ?_, ?_, ?_⟩
          · intro hand
            refine hnd ?_
            rw [List.map_append]
            exact List.Nodup.append hand (by simp) (by simpa using hnotin)
          · intro s hs
            rcases List.mem_cons.mp hs with rfl | hs2
            · exact ⟨[], hpre.subset (by simp)⟩
            · exact hstack s hs2
          · intro k ds hk
            rcases hent k ds hk with hin | hshape
            · rcases List.mem_append.mp hin with hin2 | hin2
              · exact Or.inl hin2
              · simp at hin2
                obtain ⟨rfl, rfl⟩ := hin2
                exact Or.inr (by rw [if_pos hc])
            · exact Or.inr hshape
        · rw [if_neg hc] at h
          obtain ⟨hpre, hnd, hstack, hent⟩ :=
            ih ((argIds G child).reverse ++ rest)
              (acc ++ [(child, dedupList (argIds G child))]) dm h
          have hpre2 : acc <+: dm :=
            List.IsPrefix.trans (List.prefix_append _ _) hpre
          refine ⟨hpre2, ?_, ?_, ?_⟩
          · intro hand
            refine hnd ?_
            rw [List.map_append]
            exact List.Nodup.append hand (by simp) (by simpa using hnotin)
          · intro s hs
            rcases List.mem_cons.mp hs with rfl | hs2
            · exact ⟨dedupList (argIds G s), hpre.subset (by simp)⟩
            · exact hstack s (by simp [hs2])
          · intro k ds hk
            rcases hent k ds hk with hin | hshape
            · rcases List.mem_append.mp hin with hin2 | hin2
              · exact Or.inl hin2
              · simp at hin2
                obtain ⟨rfl, rfl⟩ := hin2
                exact Or.inr (by rw [if_neg hc])
            · exact Or.inr hshape

theorem buildDepsLoop_closure {V : Type} (G : TaskGraph V) (cached : List Nat) :
    ∀ (fuel : Nat) (stack : List Nat) (acc dm : List (Nat × List Nat)),
    buildDepsLoop G cached fuel stack acc = some dm →
    (∀ k ds, (k, ds) ∈ acc → ∀ d ∈ ds,
      (∃ ds2, (d, ds2) ∈ acc) ∨ d ∈ stack) →
    ∀ k ds, (k, ds) ∈ dm → ∀ d ∈ ds, ∃ ds2, (d, ds2) ∈ dm := by
  intro fuel
  induction fuel with
  | zero =>
    intro stack acc dm h hinv
    cases stack with
    | nil =>
      simp only [buildDepsLoop, Option.some_inj] at h
      subst h
      intro k ds hk d hd
      rcases hinv k ds hk d hd with h2 | h2
      · exact h2
      · simp at h2
    | cons child rest => simp [buildDepsLoop] at h
  | succ fuel ih =>
    intro stack acc dm h hinv
    cases stack with
    | nil =>
      simp only [buildDepsLoop, Option.some_inj] at h
      subst h
      intro k ds hk d hd
      rcases hinv k ds hk d hd with h2 | h2
      · exact h2
      · simp at h2
    | cons child rest =>
      rw [buildDepsLoop] at h
      by_cases hproc : (lookupA acc child).isSome
      · rw [if_pos hproc] at h
        refine ih rest acc dm h ?_
        intro k ds hk d hd
        rcases hinv k ds hk d hd with h2 | h2
        · exact Or.inl h2
        · rcases List.mem_cons.mp h2 with rfl | h3
          · obtain ⟨ds0, hds0⟩ := Option.isSome_iff_exists.mp hproc
            exact Or.inl ⟨ds0, lookupA_mem hds0⟩
          · exact Or.inr h3
      · rw [if_neg hproc] at h
        by_cases hc : child ∈ cached
        · rw [if_pos hc] at h
          refine ih rest (acc ++ [(child, [])]) dm h ?_
          intro k ds hk d hd
          rcases List.mem_append.mp hk with hk2 | hk2
          · rcases hinv k ds hk2 d hd with h2 | h2
            · obtain ⟨ds2, h3⟩ := h2
              exact Or.inl ⟨ds2, by simp [h3]⟩
            · rcases List.mem_cons.mp h2 with rfl | h3
              · exact Or.inl ⟨[], by simp⟩
              · exact Or.inr h3
          · simp at hk2
            obtain ⟨rfl, rfl⟩ := hk2
            simp at hd
        · rw [if_neg hc] at h
          refine ih ((argIds G child).reverse ++ rest)
            (acc ++ [(child, dedupList (argIds G child))]) dm h ?_
          intro k ds hk d hd
          rcases List.mem_append.mp hk with hk2 | hk2
          · rcases hinv k ds hk2 d hd with h2 | h2
            · obtain ⟨ds2, h3⟩ := h2
              exact Or.inl ⟨ds2, by simp [h3]⟩
            · rcases List.mem_cons.mp h2 with rfl | h3
              · exact Or.inl ⟨dedupList (argIds G d), by simp⟩
              · exact Or.inr (by simp [h3])
          · simp at hk2
            obtain ⟨rfl, rfl⟩ := hk2
            refine Or.inr ?_
            rw [List.mem_append, List.mem_reverse]
            exact Or.inl (mem_dedupList.mp hd)

theorem buildDepsLoop_reaches {V : Type} (G : TaskGraph V)
    (cached targets : List Nat) :
    ∀ (fuel : Nat) (stack : List Nat) (acc dm : List (Nat × List Nat)),
    buildDepsLoop G cached fuel stack acc = some dm →
    (∀ s ∈ stack, Reaches G cached targets s) →
    (∀ k ds, (k, ds) ∈ acc → Reaches G cached targets k) →
    ∀ k ds, (k, ds) ∈ dm → Reaches G cached targets k := by
  intro fuel
  induction fuel with
  | zero =>
    intro stack acc dm h hstack hacc
    cases stack with
    | nil =>
      simp only [buildDepsLoop, Option.some_inj] at h
      subst h
      exact hacc
    | cons child rest => simp [buildDepsLoop] at h
  | succ fuel ih =>
    intro stack acc dm h hstack hacc
    cases stack with
    | nil =>
      simp only [buildDepsLoop, Option.some_inj] at h
      subst h
      exact hacc
    | cons child rest =>
      rw [buildDepsLoop] at h
      have hchild : Reaches G cached targets child := hstack child (by simp)
      by_cases hproc : (lookupA acc child).isSome
      · rw [if_pos hproc] at h
        exact ih rest acc dm h (fun s hs => hstack s (by simp [hs])) hacc
      · rw [if_neg hproc] at h
        by_cases hc : child ∈ cached
        · rw [if_pos hc] at h
          refine ih rest (acc ++ [(child, [])]) dm h
            (fun s hs => hstack s (by simp [hs])) ?_
          intro k ds hk
          rcases List.mem_append.mp hk with hk2 | hk2
          · exact hacc k ds hk2
          · simp at hk2
            obtain ⟨rfl, rfl⟩ := hk2
            exact hchild
        · rw [if_neg hc] at h
          refine ih ((argIds G child).reverse ++ rest)
            (acc ++ [(child, dedupList (argIds G child))]) dm h ?_ ?_
          · intro s hs
            rcases List.mem_append.mp hs with hs2 | hs2
            · rw [List.mem_reverse] at hs2
              exact Reaches.child hchild hc hs2
            · exact hstack s (by simp [hs2])
          · intro k ds hk
            rcases List.mem_append.mp hk with hk2 | hk2
            · exact hacc k ds hk2
            · simp at hk2
              obtain ⟨rfl, rfl⟩ := hk2
              exact hchild

/-- The dependency map built by the collector: keys have no duplicates. -/
theorem buildDeps_keys_nodup {V : Type} {G : TaskGraph V}
    {cached : List Nat} {fuel : Nat} {targets : List Nat}
    {dm : List (Nat × List Nat)} (h : buildDeps G cached fuel targets = some dm) :
    (dm.map Prod.fst).Nodup :=
  ((buildDepsLoop_props G cached fuel targets.reverse [] dm h).2.1) (by simp)

/-- Every entry of the dependency map has the collector's shape: empty for a
cached task, the set of declared arguments otherwise. -/
theorem buildDeps_entry {V : Type} {G : TaskGraph V} {cached : List Nat}
    {fuel : Nat} {targets : List Nat} {dm : List (Nat × List Nat)}
    (h : buildDeps G cached fuel targets = some dm) {k : Nat} {ds : List Nat}
    (hk : (k, ds) ∈ dm) :
    ds = if k ∈ cached then [] else dedupList (argIds G k) := by
  rcases (buildDepsLoop_props G cached fuel targets.reverse [] dm h).2.2.2
      k ds hk with h2 | h2
  · simp at h2
  · exact h2

/-- Every target is recorded in the dependency map. -/
theorem buildDeps_target_mem {V : Type} {G : TaskGraph V} {cached : List Nat}
    {fuel : Nat} {targets : List Nat} {dm : List (Nat × List Nat)}
    (h : buildDeps G cached fuel targets = some dm) {t : Nat}
    (ht : t ∈ targets) : ∃ ds, (t, ds) ∈ dm :=
  (buildDepsLoop_props G cached fuel targets.reverse [] dm h).2.2.1 t
    (by simpa using ht)

/-- Every recorded dependency is itself recorded as a key. -/
theorem buildDeps_closure {V : Type} {G : TaskGraph V} {cached : List Nat}
    {fuel : Nat} {targets : List Nat} {dm : List (Nat × List Nat)}
    (h : buildDeps G cached fuel targets = some dm) {k : Nat} {ds : List Nat}
    (hk : (k, ds) ∈ dm) {d : Nat} (hd : d ∈ ds) : ∃ ds2, (d, ds2) ∈ dm :=
  buildDepsLoop_closure G cached fuel targets.reverse [] dm h (by simp)
    k ds hk d hd

/-- Every key of the dependency map is reachable from the targets. -/
theorem buildDeps_keys_reach {V : Type} {G : TaskGraph V} {cached : List Nat}
    {fuel : Nat} {targets : List Nat} {dm : List (Nat × List Nat)}
    (h : buildDeps G cached fuel targets = some dm) {k : Nat} {ds : List Nat}
    (hk : (k, ds) ∈ dm) : Reaches G cached targets k :=
  buildDepsLoop_reaches G cached targets fuel targets.reverse [] dm h
    (fun s hs => Reaches.target (by simpa using hs)) (by simp) k ds hk

/-- Every reachable task is recorded in the dependency map. -/
theorem buildDeps_reach_mem {V : Type} {G : TaskGraph V} {cached : List Nat}
    {fuel : Nat} {targets : List Nat} {dm : List (Nat × List Nat)}
    (h : buildDeps G cached fuel targets = some dm) {t : Nat}
    (ht : Reaches G cached targets t) : ∃ ds, (t, ds) ∈ dm := by
  induction ht with
  | target hmem => exact buildDeps_target_mem h hmem
  | child hre hnc hargs ih =>
    obtain ⟨ds, hds⟩ := ih
    have hshape := buildDeps_entry h hds
    rw [if_neg hnc] at hshape
    subst hshape
    exact buildDeps_closure h hds (mem_dedupList.mpr hargs)

/-! ### The integer-indexed scheduling graph -/

theorem idxOfG_append {nv rest : List GNode} {x : GNode} (hx : x ∈ nv) :
    idxOfG (nv ++ rest) x = idxOfG nv x := by
  induction nv with
  | nil => simp at hx
  | cons y ys ih =>
    by_cases hy : y = x
    · simp [idxOfG, hy]
    · rcases List.mem_cons.mp hx with h | h
      · exact absurd h.symm hy
      · simp [idxOfG, hy, ih h]

theorem idxOfG_extend {nv nv' : List GNode} (h : nv <+: nv') {x : GNode}
    (hx : x ∈ nv) : idxOfG nv' x = idxOfG nv x := by
  obtain ⟨rest, rfl⟩ := h
  exact idxOfG_append hx

theorem idxOfG_getElem {nv : List GNode} {x : GNode} (hx : x ∈ nv) :
    idxOfG nv x < nv.length ∧ nv[idxOfG nv x]? = some x := by
  induction nv with
  | nil => simp at hx
  | cons y ys ih =>
    by_cases hy : y = x
    · subst hy
      simp [idxOfG]
    · rcases List.mem_cons.mp hx with h | h
      · exact absurd h.symm hy
      · obtain ⟨ih1, ih2⟩ := ih h
        refine ⟨by simp [idxOfG, hy]; omega, ?_⟩
        simp [idxOfG, hy, ih2]

theorem idxOfG_inj {nv : List GNode} {x y : GNode} (hx : x ∈ nv) (hy : y ∈ nv)
    (h : idxOfG nv x = idxOfG nv y) : x = y := by
  have h1 := (idxOfG_getElem hx).2
  have h2 := (idxOfG_getElem hy).2
  rw [h] at h1
  rw [h1] at h2
  injection h2

theorem idxOfG_not_mem {nv : List GNode} {x : GNode} (hx : x ∉ nv) :
    idxOfG nv x = nv.length := by
  induction nv with
  | nil => simp [idxOfG]
  | cons y ys ih =>
    have hy : y ≠ x := fun h => hx (by simp [h])
    have hx2 : x ∉ ys := fun h => hx (by simp [h])
    simp [idxOfG, hy, ih hx2]

theorem gIndex_grow (nv : List GNode) (n : GNode) : nv <+: (gIndex nv n).2 := by
  unfold gIndex
  by_cases h : n ∈ nv
  · simp [h]
  · simp only [if_neg h]
    exact List.prefix_append _ _

theorem gIndex_mem (nv : List GNode) (n : GNode) : n ∈ (gIndex nv n).2 := by
  unfold gIndex
  by_cases h : n ∈ nv
  · simp [h]
  · simp [h]

theorem idxOfG_append_self {nv : List GNode} {n : GNode} (h : n ∉ nv) :
    idxOfG (nv ++ [n]) n = nv.length := by
  induction nv with
  | nil => simp [idxOfG]
  | cons y ys ih =>
    have hy : y ≠ n := fun hc => h (by simp [hc])
    have h2 : n ∉ ys := fun hc => h (by simp [hc])
    simp [idxOfG, hy, ih h2]

theorem gIndex_fst (nv : List GNode) (n : GNode) :
    (gIndex nv n).1 = idxOfG (gIndex nv n).2 n := by
  unfold gIndex
  by_cases h : n ∈ nv
  · simp [h]
  · simp only [if_neg h]
    rw [idxOfG_append_self h]

theorem gIndex_nodup {nv : List GNode} (h : nv.Nodup) (n : GNode) :
    (gIndex nv n).2.Nodup := by
  unfold gIndex
  by_cases hm : n ∈ nv
  · simpa [hm]
  · simp only [if_neg hm]
    exact List.Nodup.append h (List.nodup_singleton n) (by simpa using hm)

theorem addDepEdges_spec (node : Nat) :
    ∀ (ds : List Nat) (es : List (Nat × Nat)) (nv : List GNode),
    nv <+: (addDepEdges node ds (es, nv)).2 ∧
    (nv.Nodup → (addDepEdges node ds (es, nv)).2.Nodup) ∧
    (∀ d ∈ ds, GNode.task d ∈ (addDepEdges node ds (es, nv)).2 ∧
      GNode.task node ∈ (addDepEdges node ds (es, nv)).2) ∧
    ∀ a b, (a, b) ∈ (addDepEdges node ds (es, nv)).1 ↔
      (a, b) ∈ es ∨ ∃ d ∈ ds,
        a = idxOfG (addDepEdges node ds (es, nv)).2 (GNode.task d) ∧
        b = idxOfG (addDepEdges node ds (es, nv)).2 (GNode.task node) := by
  intro ds
  induction ds with
  | nil =>
    intro es nv
    simp [addDepEdges]
  | cons d rest ih =>
    intro es nv
    have heq : addDepEdges node (d :: rest) (es, nv) =
        addDepEdges node rest
          (es ++ [((gIndex nv (GNode.task d)).1,
            (gIndex (gIndex nv (GNode.task d)).2 (GNode.task node)).1)],
           (gIndex (gIndex nv (GNode.task d)).2 (GNode.task node)).2) := by
      rw [addDepEdges]
    rw [heq]
    obtain ⟨ihpre, ihnd, ihmem, ihiff⟩ :=
      ih (es ++ [((gIndex nv (GNode.task d)).1,
            (gIndex (gIndex nv (GNode.task d)).2 (GNode.task node)).1)])
        ((gIndex (gIndex nv (GNode.task d)).2 (GNode.task node)).2)
    have hpre1 : nv <+: (gIndex nv (GNode.task d)).2 := gIndex_grow _ _
    have hpre2 : (gIndex nv (GNode.task d)).2 <+:
        (gIndex (gIndex nv (GNode.task d)).2 (GNode.task node)).2 :=
      gIndex_grow _ _
    have hdmem : GNode.task d ∈
        (gIndex (gIndex nv (GNode.task d)).2 (GNode.task node)).2 :=
      hpre2.subset (gIndex_mem _ _)
    have hnodemem : GNode.task node ∈
        (gIndex (gIndex nv (GNode.task d)).2 (GNode.task node)).2 :=
      gIndex_mem _ _
    have hfst1 : (gIndex nv (GNode.task d)).1 =
        idxOfG (addDepEdges node rest
          (es ++ [((gIndex nv (GNode.task d)).1,
            (gIndex (gIndex nv (GNode.task d)).2 (GNode.task node)).1)],
           (gIndex (gIndex nv (GNode.task d)).2 (GNode.task node)).2)).2
          (GNode.task d) :=
      ((gIndex_fst nv (GNode.task d)).trans
        (idxOfG_extend hpre2 (gIndex_mem _ _)).symm).trans
        (idxOfG_extend ihpre hdmem).symm
    have hfst2 : (gIndex (gIndex nv (GNode.task d)).2 (GNode.task node)).1 =
        idxOfG (addDepEdges node rest
          (es ++ [((gIndex nv (GNode.task d)).1,
            (gIndex (gIndex nv (GNode.task d)).2 (GNode.task node)).1)],
           (gIndex (gIndex nv (GNode.task d)).2 (GNode.task node)).2)).2
          (GNode.task node) :=
      (gIndex_fst _ (GNode.task node)).trans
        (idxOfG_extend ihpre hnodemem).symm
    refine ⟨List.IsPrefix.trans (List.IsPrefix.trans hpre1 hpre2) ihpre, ?_, ?_, ?_⟩
    · intro hnd
      exact ihnd (gIndex_nodup (gIndex_nodup hnd _) _)
    · intro d2 hd2
      rcases List.mem_cons.mp hd2 with rfl | hd3
      · exact ⟨ihpre.subset hdmem, ihpre.subset hnodemem⟩
      · exact ihmem d2 hd3
    · intro a b
      rw [ihiff a b]
      constructor
      · rintro (hes | ⟨d2, hd2, h2a, h2b⟩)
        · rcases List.mem_append.mp hes with h2 | h2
          · exact Or.inl h2
          · simp only [List.mem_singleton] at h2
            injection h2 with h2a h2b
            exact Or.inr ⟨d, List.mem_cons_self d rest,
              h2a.trans hfst1, h2b.trans hfst2⟩
        · exact Or.inr ⟨d2, List.mem_cons_of_mem d hd2, h2a, h2b⟩
      · rintro (hes | ⟨d2, hd2, h2a, h2b⟩)
        · exact Or.inl (List.mem_append.mpr (Or.inl hes))
        · rcases List.mem_cons.mp hd2 with rfl | hd3
          · refine Or.inl (List.mem_append.mpr (Or.inr ?_))
            simp only [List.mem_singleton]
            rw [h2a, h2b, ← hfst1, ← hfst2]
          · exact Or.inr ⟨d2, hd3, h2a, h2b⟩

theorem addAllDeps_spec :
    ∀ (dm : List (Nat × List Nat)) (es : List (Nat × Nat)) (nv : List GNode),
    nv <+: (addAllDeps dm (es, nv)).2 ∧
    (nv.Nodup → (addAllDeps dm (es, nv)).2.Nodup) ∧
    (∀ k ds, (k, ds) ∈ dm → ∀ d ∈ ds,
      GNode.task d ∈ (addAllDeps dm (es, nv)).2 ∧
      GNode.task k ∈ (addAllDeps dm (es, nv)).2) ∧
    ∀ a b, (a, b) ∈ (addAllDeps dm (es, nv)).1 ↔
      (a, b) ∈ es ∨ ∃ k ds, (k, ds) ∈ dm ∧ ∃ d ∈ ds,
        a = idxOfG (addAllDeps dm (es, nv)).2 (GNode.task d) ∧
        b = idxOfG (addAllDeps dm (es, nv)).2 (GNode.task k) := by
  intro dm
  induction dm with
  | nil =>
    intro es nv
    simp [addAllDeps]
  | cons entry rest ih =>
    obtain ⟨node, ds⟩ := entry
    intro es nv
    have heq : addAllDeps ((node, ds) :: rest) (es, nv) =
        addAllDeps rest (addDepEdges node ds (es, nv)) := by
      rw [addAllDeps]
    obtain ⟨hpre1, hnd1, hmem1, hiff1⟩ := addDepEdges_spec node ds es nv
    obtain ⟨hpre2, hnd2, hmem2, hiff2⟩ :=
      ih (addDepEdges node ds (es, nv)).1 (addDepEdges node ds (es, nv)).2
    rw [heq]
    have hsame : addAllDeps rest (addDepEdges node ds (es, nv)) =
        addAllDeps rest
          ((addDepEdges node ds (es, nv)).1, (addDepEdges node ds (es, nv)).2) := by
      rfl
    rw [hsame]
    refine ⟨List.IsPrefix.trans hpre1 hpre2, fun h => hnd2 (hnd1 h), ?_, ?_⟩
    · intro k ds2 hk d hd
      rcases List.mem_cons.mp hk with hk2 | hk2
      · injection hk2 with hk2a hk2b
        subst hk2a
        subst hk2b
        obtain ⟨hm1, hm2⟩ := hmem1 d hd
        exact ⟨hpre2.subset hm1, hpre2.subset hm2⟩
      · exact hmem2 k ds2 hk2 d hd
    · intro a b
      rw [hiff2 a b]
      constructor
      · rintro (h1 | ⟨k, ds2, hk, d, hd, ha, hb⟩)
        · rcases (hiff1 a b).mp h1 with h2 | ⟨d, hd, ha, hb⟩
          · exact Or.inl h2
          · obtain ⟨hm1, hm2⟩ := hmem1 d hd
            refine Or.inr ⟨node, ds, List.mem_cons_self _ _, d, hd, ?_, ?_⟩
            · rw [ha, idxOfG_extend hpre2 hm1]
            · rw [hb, idxOfG_extend hpre2 hm2]
        · exact Or.inr ⟨k, ds2, List.mem_cons_of_mem _ hk, d, hd, ha, hb⟩
      · rintro (h1 | ⟨k, ds2, hk, d, hd, ha, hb⟩)
        · exact Or.inl ((hiff1 a b).mpr (Or.inl h1))
        · rcases List.mem_cons.mp hk with hk2 | hk2

          · injection hk2 with hk2a hk2b
            subst hk2a
            subst hk2b
            obtain ⟨hm1, hm2⟩ := hmem1 d hd
            refine Or.inl ((hiff1 a b).mpr (Or.inr ⟨d, hd, ?_, ?_⟩))
            · rw [ha, idxOfG_extend hpre2 hm1]
            · rw [hb, idxOfG_extend hpre2 hm2]
          · exact Or.inr ⟨k, ds2, hk2, d, hd, ha, hb⟩

theorem addTargetEdges_spec (dummyIdx : Nat) :
    ∀ (ts : List Nat) (es : List (Nat × Nat)) (nv : List GNode),
    nv <+: (addTargetEdges dummyIdx ts (es, nv)).2 ∧
    (nv.Nodup → (addTargetEdges dummyIdx ts (es, nv)).2.Nodup) ∧
    (∀ t ∈ ts, GNode.task t ∈ (addTargetEdges dummyIdx ts (es, nv)).2) ∧
    ∀ a b, (a, b) ∈ (addTargetEdges dummyIdx ts (es, nv)).1 ↔
      (a, b) ∈ es ∨ (a = dummyIdx ∧ ∃ t ∈ ts,
        b = idxOfG (addTargetEdges dummyIdx ts (es, nv)).2 (GNode.task t)) := by
  intro ts
  induction ts with
  | nil =>
    intro es nv
    simp [addTargetEdges]
  | cons t rest ih =>
    intro es nv
    have heq : addTargetEdges dummyIdx (t :: rest) (es, nv) =
        addTargetEdges dummyIdx rest
          (es ++ [(dummyIdx, (gIndex nv (GNode.task t)).1)],
           (gIndex nv (GNode.task t)).2) := by
      rw [addTargetEdges]
    rw [heq]
    obtain ⟨ihpre, ihnd, ihmem, ihiff⟩ :=
      ih (es ++ [(dummyIdx, (gIndex nv (GNode.task t)).1)])
        (gIndex nv (GNode.task t)).2
    have htmem : GNode.task t ∈ (gIndex nv (GNode.task t)).2 := gIndex_mem _ _
    have hfst : (gIndex nv (GNode.task t)).1 =
        idxOfG (addTargetEdges dummyIdx rest
          (es ++ [(dummyIdx, (gIndex nv (GNode.task t)).1)],
           (gIndex nv (GNode.task t)).2)).2 (GNode.task t) :=
      (gIndex_fst nv (GNode.task t)).trans (idxOfG_extend ihpre htmem).symm
    refine ⟨List.IsPrefix.trans (gIndex_grow _ _) ihpre,
      fun h => ihnd (gIndex_nodup h _), ?_, ?_⟩
    · intro t2 ht2
      rcases List.mem_cons.mp ht2 with rfl | ht3
      · exact ihpre.subset htmem
      · exact ihmem t2 ht3
    · intro a b
      rw [ihiff a b]
      constructor
      · rintro (hes | ⟨ha, t2, ht2, hb⟩)
        · rcases List.mem_append.mp hes with h2 | h2
          · exact Or.inl h2
          · simp only [List.mem_singleton] at h2
            injection h2 with h2a h2b
            exact Or.inr ⟨h2a, t, List.mem_cons_self t rest, h2b.trans hfst⟩
        · exact Or.inr ⟨ha, t2, List.mem_cons_of_mem t ht2, hb⟩
      · rintro (hes | ⟨ha, t2, ht2, hb⟩)
        · exact Or.inl (List.mem_append.mpr (Or.inl hes))
        · rcases List.mem_cons.mp ht2 with rfl | ht3
          · refine Or.inl (List.mem_append.mpr (Or.inr ?_))
            simp only [List.mem_singleton]
            rw [ha, hb, ← hfst]
          · exact Or.inr ⟨ha, t2, ht3, hb⟩

theorem buildEdgeData_spec (dm : List (Nat × List Nat)) (targets : List Nat) :
    (buildEdgeData dm targets).nv.Nodup ∧
    GNode.dummy ∈ (buildEdgeData dm targets).nv ∧
    (buildEdgeData dm targets).dummyIdx =
      idxOfG (buildEdgeData dm targets).nv GNode.dummy ∧
    (∀ t ∈ targets, GNode.task t ∈ (buildEdgeData dm targets).nv) ∧
    (∀ k ds, (k, ds) ∈ dm → ∀ d ∈ ds,
      GNode.task d ∈ (buildEdgeData dm targets).nv ∧
      GNode.task k ∈ (buildEdgeData dm targets).nv) ∧
    ∀ a b, (a, b) ∈ (buildEdgeData dm targets).edges ↔
      (∃ k ds, (k, ds) ∈ dm ∧ ∃ d ∈ ds,
        a = idxOfG (buildEdgeData dm targets).nv (GNode.task d) ∧
        b = idxOfG (buildEdgeData dm targets).nv (GNode.task k)) ∨
      (a = (buildEdgeData dm targets).dummyIdx ∧ ∃ t ∈ targets,
        b = idxOfG (buildEdgeData dm targets).nv (GNode.task t)) := by
  obtain ⟨pre1, nd1, mem1, iff1⟩ := addAllDeps_spec dm [] []
  obtain ⟨pre3, nd3, mem3, iff3⟩ := addTargetEdges_spec
    (gIndex (addAllDeps dm ([], [])).2 GNode.dummy).1 targets
    (addAllDeps dm ([], [])).1
    (gIndex (addAllDeps dm ([], [])).2 GNode.dummy).2
  have hpd1 : (buildEdgeData dm targets).dummyIdx =
      (gIndex (addAllDeps dm ([], [])).2 GNode.dummy).1 := rfl
  have hnv : (buildEdgeData dm targets).nv =
      (addTargetEdges (gIndex (addAllDeps dm ([], [])).2 GNode.dummy).1 targets
        ((addAllDeps dm ([], [])).1,
         (gIndex (addAllDeps dm ([], [])).2 GNode.dummy).2)).2 := rfl
  have hed : (buildEdgeData dm targets).edges =
      (addTargetEdges (gIndex (addAllDeps dm ([], [])).2 GNode.dummy).1 targets
        ((addAllDeps dm ([], [])).1,
         (gIndex (addAllDeps dm ([], [])).2 GNode.dummy).2)).1 := rfl
  rw [hpd1, hnv, hed]
  have hpre2 : (addAllDeps dm ([], [])).2 <+:
      (gIndex (addAllDeps dm ([], [])).2 GNode.dummy).2 := gIndex_grow _ _
  have hdummem : GNode.dummy ∈
      (addTargetEdges (gIndex (addAllDeps dm ([], [])).2 GNode.dummy).1 targets
        ((addAllDeps dm ([], [])).1,
         (gIndex (addAllDeps dm ([], [])).2 GNode.dummy).2)).2 :=
    pre3.subset (gIndex_mem _ _)
  have hdidx : (gIndex (addAllDeps dm ([], [])).2 GNode.dummy).1 =
      idxOfG (addTargetEdges
        (gIndex (addAllDeps dm ([], [])).2 GNode.dummy).1 targets
        ((addAllDeps dm ([], [])).1,
         (gIndex (addAllDeps dm ([], [])).2 GNode.dummy).2)).2 GNode.dummy :=
    (gIndex_fst _ GNode.dummy).trans
      (idxOfG_extend pre3 (gIndex_mem _ _)).symm
  refine ⟨nd3 (gIndex_nodup (nd1 List.nodup_nil) _), hdummem, hdidx, mem3, ?_, ?_⟩
  · intro k ds hk d hd
    obtain ⟨hm1, hm2⟩ := mem1 k ds hk d hd
    exact ⟨pre3.subset (hpre2.subset hm1), pre3.subset (hpre2.subset hm2)⟩
  · intro a b
    rw [iff3 a b]
    constructor
    · rintro (h1 | ⟨ha, t, ht, hb⟩)
      · rcases (iff1 a b).mp h1 with h2 | ⟨k, ds, hk, d, hd, ha2, hb2⟩
        · simp at h2
        · obtain ⟨hm1, hm2⟩ := mem1 k ds hk d hd
          refine Or.inl ⟨k, ds, hk, d, hd, ?_, ?_⟩
          · rw [ha2, idxOfG_extend pre3 (hpre2.subset hm1),
              idxOfG_extend hpre2 hm1]
          · rw [hb2, idxOfG_extend pre3 (hpre2.subset hm2),
              idxOfG_extend hpre2 hm2]
      · exact Or.inr ⟨ha, t, ht, hb⟩
    · rintro (⟨k, ds, hk, d, hd, ha2, hb2⟩ | ⟨ha, t, ht, hb⟩)
      · obtain ⟨hm1, hm2⟩ := mem1 k ds hk d hd
        refine Or.inl ((iff1 a b).mpr (Or.inr ⟨k, ds, hk, d, hd, ?_, ?_⟩))
        · rw [ha2, ← idxOfG_extend hpre2 hm1,
            ← idxOfG_extend pre3 (hpre2.subset hm1)]
        · rw [hb2, ← idxOfG_extend hpre2 hm2,
            ← idxOfG_extend pre3 (hpre2.subset hm2)]
      · exact Or.inr ⟨ha, t, ht, hb⟩

/-- Every key of the dependency map is a target or a recorded dependency of
some key: it entered the work stack one way or the other. -/
theorem buildDepsLoop_origin {V : Type} (G : TaskGraph V)
    (cached targets : List Nat) :
    ∀ (fuel : Nat) (stack : List Nat) (acc dm : List (Nat × List Nat)),
    buildDepsLoop G cached fuel stack acc = some dm →
    (∀ s ∈ stack, s ∈ targets ∨ ∃ k2 ds2, (k2, ds2) ∈ acc ∧ s ∈ ds2) →
    (∀ k ds, (k, ds) ∈ acc →
      k ∈ targets ∨ ∃ k2 ds2, (k2, ds2) ∈ acc ∧ k ∈ ds2) →
    ∀ k ds, (k, ds) ∈ dm →
      k ∈ targets ∨ ∃ k2 ds2, (k2, ds2) ∈ dm ∧ k ∈ ds2 := by
  intro fuel
  induction fuel with
  | zero =>
    intro stack acc dm h hstack hacc
    cases stack with
    | nil =>
      simp only [buildDepsLoop, Option.some_inj] at h
      subst h
      exact hacc
    | cons child rest => simp [buildDepsLoop] at h
  | succ fuel ih =>
    intro stack acc dm h hstack hacc
    cases stack with
    | nil =>
      simp only [buildDepsLoop, Option.some_inj] at h
      subst h
      exact hacc
    | cons child rest =>
      rw [buildDepsLoop] at h
      have hchild := hstack child (by simp)
      by_cases hproc : (lookupA acc child).isSome
      · rw [if_pos hproc] at h
        exact ih rest acc dm h (fun s hs => hstack s (by simp [hs])) hacc
      · rw [if_neg hproc] at h
        by_cases hc : child ∈ cached
        · rw [if_pos hc] at h
          refine ih rest (acc ++ [(child, [])]) dm h ?_ ?_
          · intro s hs
            rcases hstack s (by simp [hs]) with h2 | ⟨k2, ds2, hk2, hs2⟩
            · exact Or.inl h2
            · exact Or.inr ⟨k2, ds2, by simp [hk2], hs2⟩
          · intro k ds hk
            rcases List.mem_append.mp hk with hk2 | hk2
            · rcases hacc k ds hk2 with h2 | ⟨k2, ds2, hk3, hs2⟩
              · exact Or.inl h2
              · exact Or.inr ⟨k2, ds2, by simp [hk3], hs2⟩
            · simp at hk2
              obtain ⟨rfl, rfl⟩ := hk2
              rcases hchild with h2 | ⟨k2, ds2, hk3, hs2⟩
              · exact Or.inl h2
              · exact Or.inr ⟨k2, ds2, by simp [hk3], hs2⟩
        · rw [if_neg hc] at h
          refine ih ((argIds G child).reverse ++ rest)
            (acc ++ [(child, dedupList (argIds G child))]) dm h ?_ ?_
          · intro s hs
            rcases List.mem_append.mp hs with hs2 | hs2
            · rw [List.mem_reverse] at hs2
              exact Or.inr ⟨child, dedupList (argIds G child), by simp,
                mem_dedupList.mpr hs2⟩
            · rcases hstack s (by simp [hs2]) with h2 | ⟨k2, ds2, hk2, hs3⟩
              · exact Or.inl h2
              · exact Or.inr ⟨k2, ds2, by simp [hk2], hs3⟩
          · intro k ds hk
            rcases List.mem_append.mp hk with hk2 | hk2
            · rcases hacc k ds hk2 with h2 | ⟨k2, ds2, hk3, hs2⟩
              · exact Or.inl h2
              · exact Or.inr ⟨k2, ds2, by simp [hk3], hs2⟩
            · simp at hk2
              obtain ⟨rfl, rfl⟩ := hk2
              rcases hchild with h2 | ⟨k2, ds2, hk3, hs2⟩
              · exact Or.inl h2
              · exact Or.inr ⟨k2, ds2, by simp [hk3], hs2⟩

/-- Final form of the origin lemma for `buildDeps`. -/
theorem buildDeps_origin {V : Type} {G : TaskGraph V} {cached : List Nat}
    {fuel : Nat} {targets : List Nat} {dm : List (Nat × List Nat)}
    (h : buildDeps G cached fuel targets = some dm) {k : Nat} {ds : List Nat}
    (hk : (k, ds) ∈ dm) :
    k ∈ targets ∨ ∃ k2 ds2, (k2, ds2) ∈ dm ∧ k ∈ ds2 :=
  buildDepsLoop_origin G cached targets fuel targets.reverse [] dm h
    (fun s hs => Or.inl (by simpa using hs)) (by simp) k ds hk

theorem nodup_getElem?_inj {α : Type _} {l : List α} (h : l.Nodup) {i j : Nat}
    {x : α} (hi : l[i]? = some x) (hj : l[j]? = some x) : i = j := by
  have hi2 := List.getElem?_eq_some_iff.mp hi
  have hj2 := List.getElem?_eq_some_iff.mp hj
  obtain ⟨hil, hig⟩ := hi2
  obtain ⟨hjl, hjg⟩ := hj2
  have : l.get ⟨i, hil⟩ = l.get ⟨j, hjl⟩ := by
    simp only [List.get_eq_getElem]
    rw [hig, hjg]
  exact congrArg Fin.val ((List.Nodup.get_inj_iff h).mp this)

theorem filterMap_getElem_pos {α β : Type _} (f : α → Option β) :
    ∀ (l : List α) (i : Nat) (b : β), (l.filterMap f)[i]? = some b →
    ∃ p, ∃ hp : p < l.length, f l[p] = some b ∧
      (l.take p).filterMap f = (l.filterMap f).take i := by
  intro l
  induction l with
  | nil => intro i b hb; simp at hb
  | cons x xs ih =>
    intro i b hb
    cases hfx : f x with
    | none =>
      rw [List.filterMap_cons_none hfx] at hb
      obtain ⟨p, hp, h1, h2⟩ := ih i b hb
      refine ⟨p + 1, by simpa using hp, by simpa using h1, ?_⟩
      rw [List.take_succ_cons, List.filterMap_cons_none hfx, h2,
        List.filterMap_cons_none hfx]
    | some v =>
      rw [List.filterMap_cons_some hfx] at hb
      cases i with
      | zero =>
        simp only [List.getElem?_cons_zero, Option.some_inj] at hb
        subst hb
        refine ⟨0, by simp, by simpa using hfx, by simp⟩
      | succ i =>
        simp only [List.getElem?_cons_succ] at hb
        obtain ⟨p, hp, h1, h2⟩ := ih i b hb
        refine ⟨p + 1, by simpa using hp, by simpa using h1, ?_⟩
        rw [List.take_succ_cons, List.filterMap_cons_some hfx, h2,
          List.filterMap_cons_some hfx, List.take_succ_cons]

/-! ### The computed schedule -/

theorem scheduleOf_eq {V : Type} {G : TaskGraph V} {targets cached : List Nat}
    {dm : List (Nat × List Nat)} {sched : List Nat}
    (hs : scheduleOf G targets cached dm = some sched) :
    ∃ order, lexTopoSort (buildEdgeData dm targets).edges
        (compareKey G (buildEdgeData dm targets).nv) = some order ∧
      sched = order.filterMap (nodeTask (buildEdgeData dm targets).nv cached
        (buildEdgeData dm targets).dummyIdx) := by
  unfold scheduleOf at hs
  rcases Option.map_eq_some'.mp hs with ⟨order, h1, h2⟩
  exact ⟨order, h1, h2.symm⟩

theorem nodeTask_of_mem {nv : List GNode} {cached : List Nat}
    {dummyIdx t : Nat} (hdumm : GNode.dummy ∈ nv)
    (hdidx : dummyIdx = idxOfG nv GNode.dummy) (ht : GNode.task t ∈ nv)
    (hc : t ∉ cached) :
    nodeTask nv cached dummyIdx (idxOfG nv (GNode.task t)) = some t := by
  have hne : idxOfG nv (GNode.task t) ≠ dummyIdx := by
    intro hcon
    rw [hdidx] at hcon
    exact absurd (idxOfG_inj ht hdumm hcon) (by simp)
  unfold nodeTask
  rw [if_neg hne, (idxOfG_getElem ht).2]
  simp [hc]

theorem nodeTask_inv {nv : List GNode} {cached : List Nat} {dummyIdx i t : Nat}
    (h : nodeTask nv cached dummyIdx i = some t) :
    i ≠ dummyIdx ∧ nv[i]? = some (GNode.task t) ∧ t ∉ cached := by
  unfold nodeTask at h
  by_cases hi : i = dummyIdx
  · simp [hi] at h
  · rw [if_neg hi] at h
    cases hg : nv[i]? with
    | none => rw [hg] at h; simp at h
    | some x =>
      rw [hg] at h
      cases x with
      | dummy => simp at h
      | task t2 =>
        by_cases hc : t2 ∈ cached
        · simp [hc] at h
        · simp only [if_neg hc, Option.some_inj] at h
          subst h
          exact ⟨hi, rfl, hc⟩

/-- The schedule built by `_make_schedule`: it has no duplicates, contains
precisely the non-cached keys of the dependency map, and lists every
non-cached recorded dependency of a scheduled task before that task. -/
theorem scheduleOf_spec {V : Type} {G : TaskGraph V} {targets cached : List Nat}
    {fuel : Nat} {dm : List (Nat × List Nat)} {sched : List Nat}
    (hdm : buildDeps G cached fuel targets = some dm)
    (hs : scheduleOf G targets cached dm = some sched) :
    sched.Nodup ∧
    (∀ t, t ∈ sched ↔ (∃ ds, (t, ds) ∈ dm) ∧ t ∉ cached) ∧
    ∀ i (hi : i < sched.length) (d : Nat), d ∈ depsOfDM dm sched[i] →
      d ∉ cached → ∃ j, j < i ∧ ∃ hj : j < sched.length, sched[j] = d := by
  obtain ⟨order, hord, hfm⟩ := scheduleOf_eq hs
  obtain ⟨hnvnd, hdumm, hdidx, htargnv, hdmnv, hiff⟩ := buildEdgeData_spec dm targets
  obtain ⟨hordnd, hordmem, hordstep⟩ := lexTopoSort_spec hord
  have hmem_iff : ∀ t, t ∈ sched ↔ (∃ ds, (t, ds) ∈ dm) ∧ t ∉ cached := by
    intro t
    rw [hfm, List.mem_filterMap]
    constructor
    · rintro ⟨i, hio, hnt⟩
      obtain ⟨hne, hg, hc⟩ := nodeTask_inv hnt
      refine ⟨?_, hc⟩
      have hnodes := (hordmem i).mp hio
      obtain ⟨e, he, hni⟩ := mem_nodesOf.mp hnodes
      have hepair : (e.1, e.2) ∈ (buildEdgeData dm targets).edges := by
        simpa using he
      rcases (hiff e.1 e.2).mp hepair with
        ⟨k, ds, hk, d, hd, ha, hb⟩ | ⟨ha, t2, ht2, hb⟩
      · obtain ⟨hdnv, hknv⟩ := hdmnv k ds hk d hd
        rcases hni with rfl | rfl
        · rw [ha] at hg
          rw [(idxOfG_getElem hdnv).2] at hg
          injection hg with hg2
          injection hg2 with hg3
          subst hg3
          exact buildDeps_closure hdm hk hd
        · rw [hb] at hg
          rw [(idxOfG_getElem hknv).2] at hg
          injection hg with hg2
          injection hg2 with hg3
          subst hg3
          exact ⟨ds, hk⟩
      · rcases hni with rfl | rfl
        · exact absurd ha hne
        · rw [hb] at hg
          rw [(idxOfG_getElem (htargnv t2 ht2)).2] at hg
          injection hg with hg2
          injection hg2 with hg3
          subst hg3
          exact buildDeps_target_mem hdm ht2
    · rintro ⟨⟨ds, hds⟩, hc⟩
      rcases buildDeps_origin hdm hds with htarg | ⟨k2, ds2, hk2, hin⟩
      · have htnv : GNode.task t ∈ (buildEdgeData dm targets).nv := htargnv t htarg
        have hedge : ((buildEdgeData dm targets).dummyIdx,
            idxOfG (buildEdgeData dm targets).nv (GNode.task t)) ∈
            (buildEdgeData dm targets).edges :=
          (hiff _ _).mpr (Or.inr ⟨rfl, t, htarg, rfl⟩)
        refine ⟨idxOfG (buildEdgeData dm targets).nv (GNode.task t), ?_, ?_⟩
        · exact (hordmem _).mpr (edge_snd_mem_nodes hedge)
        · exact nodeTask_of_mem hdumm hdidx htnv hc
      · have htnv : GNode.task t ∈ (buildEdgeData dm targets).nv :=
          (hdmnv k2 ds2 hk2 t hin).1
        have hedge : (idxOfG (buildEdgeData dm targets).nv (GNode.task t),
            idxOfG (buildEdgeData dm targets).nv (GNode.task k2)) ∈
            (buildEdgeData dm targets).edges :=
          (hiff _ _).mpr (Or.inl ⟨k2, ds2, hk2, t, hin, rfl, rfl⟩)
        refine ⟨idxOfG (buildEdgeData dm targets).nv (GNode.task t), ?_, ?_⟩
        · exact (hordmem _).mpr (edge_fst_mem_nodes hedge)
        · exact nodeTask_of_mem hdumm hdidx htnv hc
  refine ⟨?_, hmem_iff, ?_⟩
  · rw [hfm]
    refine List.Nodup.filterMap ?_ hordnd
    intro i j t hti htj
    rw [Option.mem_def] at hti htj
    obtain ⟨_, hg1, _⟩ := nodeTask_inv hti
    obtain ⟨_, hg2, _⟩ := nodeTask_inv htj
    exact nodup_getElem?_inj hnvnd hg1 hg2
  · intro i hi d hd hdc
    obtain ⟨t, ht⟩ : ∃ t, sched[i]? = some t :=
      ⟨sched[i], List.getElem?_eq_getElem hi⟩
    have hteq : sched[i] = t := by
      have h2 := List.getElem?_eq_getElem hi
      rw [ht] at h2
      injection h2 with h3
      exact h3.symm
    rw [hteq] at hd
    rw [hfm] at ht
    obtain ⟨p, hp, hf, htake⟩ := filterMap_getElem_pos _ order i t ht
    obtain ⟨hne, hg, hc⟩ := nodeTask_inv hf
    cases hlk : lookupA dm t with
    | none => rw [depsOfDM, hlk] at hd; simp at hd
    | some ds0 =>
      rw [depsOfDM, hlk] at hd
      simp only [Option.getD_some] at hd
      have htds0 : (t, ds0) ∈ dm := lookupA_mem hlk
      obtain ⟨hdnv, htnv⟩ := hdmnv t ds0 htds0 d hd
      have hedge : (idxOfG (buildEdgeData dm targets).nv (GNode.task d),
          idxOfG (buildEdgeData dm targets).nv (GNode.task t)) ∈
          (buildEdgeData dm targets).edges :=
        (hiff _ _).mpr (Or.inl ⟨t, ds0, htds0, d, hd, rfl, rfl⟩)
      have hporder : order[p] = idxOfG (buildEdgeData dm targets).nv
          (GNode.task t) :=
        nodup_getElem?_inj hnvnd hg (idxOfG_getElem htnv).2
      obtain ⟨q, hqp, hq, hqg⟩ := lexTopoSort_edge_before hord hedge p hp hporder
      have hdmem : d ∈ (order.take p).filterMap
          (nodeTask (buildEdgeData dm targets).nv cached
            (buildEdgeData dm targets).dummyIdx) := by
        rw [List.mem_filterMap]
        refine ⟨order[q], mem_take_iff_get.mpr ⟨q, hqp, hq, rfl⟩, ?_⟩
        rw [hqg]
        exact nodeTask_of_mem hdumm hdidx hdnv hdc
      rw [htake, ← hfm] at hdmem
      obtain ⟨j, hji, hj, hjg⟩ := mem_take_iff_get.mp hdmem
      exact ⟨j, hji, hj, hjg⟩

/-- A cycle in the collected dependency relation makes `_make_schedule` fail
with the graph-cycle error. -/
theorem scheduleOf_none_of_cycle {V : Type} {G : TaskGraph V}
    {targets cached : List Nat} {fuel : Nat} {dm : List (Nat × List Nat)}
    {t : Nat} (hdm : buildDeps G cached fuel targets = some dm)
    (hcyc : Relation.TransGen (depEdge G cached targets) t t) :
    scheduleOf G targets cached dm = none := by
  obtain ⟨hnvnd, hdumm, hdidx, htargnv, hdmnv, hiff⟩ := buildEdgeData_spec dm targets
  have hstep : ∀ a b, depEdge G cached targets a b →
      edgeRel (buildEdgeData dm targets).edges
        (idxOfG (buildEdgeData dm targets).nv (GNode.task a))
        (idxOfG (buildEdgeData dm targets).nv (GNode.task b)) := by
    intro a b hab
    obtain ⟨hre, hnc, harg⟩ := hab
    obtain ⟨ds, hds⟩ := buildDeps_reach_mem hdm hre
    have hshape := buildDeps_entry hdm hds
    rw [if_neg hnc] at hshape
    subst hshape
    exact (hiff _ _).mpr
      (Or.inl ⟨b, _, hds, a, mem_dedupList.mpr harg, rfl, rfl⟩)
  have hcyc2 := Relation.TransGen.lift
    (fun x => idxOfG (buildEdgeData dm targets).nv (GNode.task x)) hstep hcyc
  unfold scheduleOf
  rw [lexTopoSort_cycle hcyc2]
  rfl

/-- If the collected dependency relation is acyclic, `_make_schedule`
succeeds. -/
theorem scheduleOf_isSome_of_acyclic {V : Type} {G : TaskGraph V}
    {targets cached : List Nat} {fuel : Nat} {dm : List (Nat × List Nat)}
    (hdm : buildDeps G cached fuel targets = some dm)
    (hacyc : ∀ t, ¬ Relation.TransGen (depEdge G cached targets) t t) :
    ∃ sched, scheduleOf G targets cached dm = some sched := by
  obtain ⟨hnvnd, hdumm, hdidx, htargnv, hdmnv, hiff⟩ := buildEdgeData_spec dm targets
  have htail : ∀ a b, edgeRel (buildEdgeData dm targets).edges a b →
      b ≠ (buildEdgeData dm targets).dummyIdx := by
    intro a b hab hcon
    rcases (hiff a b).mp hab with ⟨k, ds, hk, d, hd, ha, hb⟩ | ⟨ha, t2, ht2, hb⟩
    · obtain ⟨hdnv, hknv⟩ := hdmnv k ds hk d hd
      have heq : idxOfG (buildEdgeData dm targets).nv GNode.dummy =
          idxOfG (buildEdgeData dm targets).nv (GNode.task k) := by
        rw [← hdidx, ← hcon, hb]
      exact absurd (idxOfG_inj hdumm hknv heq) (by simp)
    · have htnv := htargnv t2 ht2
      have heq : idxOfG (buildEdgeData dm targets).nv GNode.dummy =
          idxOfG (buildEdgeData dm targets).nv (GNode.task t2) := by
        rw [← hdidx, ← hcon, hb]
      exact absurd (idxOfG_inj hdumm htnv heq) (by simp)
  have htgne : ∀ a b,
      Relation.TransGen (edgeRel (buildEdgeData dm targets).edges) a b →
      b ≠ (buildEdgeData dm targets).dummyIdx := by
    intro a b htg
    induction htg with
    | single hr => exact htail _ _ hr
    | tail _ hr _ => exact htail _ _ hr
  have hstep_task : ∀ a b, edgeRel (buildEdgeData dm targets).edges a b →
      a ≠ (buildEdgeData dm targets).dummyIdx →
      ∃ ta tb, (buildEdgeData dm targets).nv[a]? = some (GNode.task ta) ∧
        (buildEdgeData dm targets).nv[b]? = some (GNode.task tb) ∧
        ∃ ds, (tb, ds) ∈ dm ∧ ta ∈ ds := by
    intro a b hab hane
    rcases (hiff a b).mp hab with ⟨k, ds, hk, d, hd, ha, hb⟩ | ⟨ha, t2, ht2, hb⟩
    · obtain ⟨hdnv, hknv⟩ := hdmnv k ds hk d hd
      subst ha
      subst hb
      exact ⟨d, k, (idxOfG_getElem hdnv).2, (idxOfG_getElem hknv).2, ds, hk, hd⟩
    · exact absurd ha hane
  have hmap : ∀ a b,
      Relation.TransGen (edgeRel (buildEdgeData dm targets).edges) a b →
      a ≠ (buildEdgeData dm targets).dummyIdx →
      ∃ ta tb, (buildEdgeData dm targets).nv[a]? = some (GNode.task ta) ∧
        (buildEdgeData dm targets).nv[b]? = some (GNode.task tb) ∧
        Relation.TransGen (fun x y => ∃ ds, (y, ds) ∈ dm ∧ x ∈ ds) ta tb := by
    intro a b htg
    induction htg with
    | single hr =>
      intro hane
      obtain ⟨ta, tb, h1, h2, h3⟩ := hstep_task _ _ hr hane
      exact ⟨ta, tb, h1, h2, Relation.TransGen.single h3⟩
    | tail htg2 hr ih =>
      intro hane
      obtain ⟨ta, tb, h1, h2, h3⟩ := ih hane
      have hbne := htgne _ _ htg2
      obtain ⟨tb2, tc, h4, h5, h6⟩ := hstep_task _ _ hr hbne
      rw [h2] at h4
      injection h4 with h7
      injection h7 with h8
      subst h8
      exact ⟨ta, tc, h1, h5, Relation.TransGen.tail h3 h6⟩
  have hedgeacyc : ∀ n,
      ¬ Relation.TransGen (edgeRel (buildEdgeData dm targets).edges) n n := by
    intro n hn
    have hne := htgne _ _ hn
    obtain ⟨ta, tb, h1, h2, h3⟩ := hmap _ _ hn hne
    rw [h1] at h2
    injection h2 with h4
    injection h4 with h5
    subst h5
    refine hacyc ta (Relation.TransGen.mono ?_ h3)
    intro x y hxy
    obtain ⟨ds, hds, hx⟩ := hxy
    have hshape := buildDeps_entry hdm hds
    by_cases hyc : y ∈ cached
    · rw [if_pos hyc] at hshape
      subst hshape
      simp at hx
    · rw [if_neg hyc] at hshape
      subst hshape
      exact ⟨buildDeps_keys_reach hdm hds, hyc, mem_dedupList.mp hx⟩
  obtain ⟨order, hord⟩ := @lexTopoSort_complete (buildEdgeData dm targets).edges
    (compareKey G (buildEdgeData dm targets).nv) hedgeacyc
  refine ⟨order.filterMap (nodeTask (buildEdgeData dm targets).nv cached
    (buildEdgeData dm targets).dummyIdx), ?_⟩
  unfold scheduleOf
  rw [hord]
  rfl

/-! ### The last-use pre-pass of run -/

theorem oElse_assoc (a b c : Option Nat) :
    oElse (oElse a b) c = oElse a (oElse b c) := by
  cases a <;> cases b <;> simp [oElse]

theorem lookupA_append {β : Type _} (l1 l2 : List (Nat × β)) (t : Nat) :
    lookupA (l1 ++ l2) t =
      match lookupA l1 t with
      | some v => some v
      | none => lookupA l2 t := by
  induction l1 with
  | nil => simp [lookupA]
  | cons p rest ih =>
    obtain ⟨k, v⟩ := p
    by_cases hk : k = t <;> simp [lookupA, hk, ih]

theorem lookupA_insIfAbsent (m : List (Nat × Nat)) (k v t : Nat) :
    lookupA (insIfAbsent m k v) t =
      oElse (lookupA m t) (if t = k then some v else none) := by
  unfold insIfAbsent
  by_cases hp : (lookupA m k).isSome
  · rw [if_pos hp]
    by_cases ht : t = k
    · subst ht
      obtain ⟨w, hw⟩ := Option.isSome_iff_exists.mp hp
      simp [hw, oElse]
    · cases hm : lookupA m t <;> simp [oElse, ht]
  · rw [if_neg hp]
    rw [lookupA_append]
    by_cases ht : t = k
    · subst ht
      have hm : lookupA m t = none := by
        cases hm : lookupA m t
        · rfl
        · rw [hm] at hp; simp at hp
      simp [hm, lookupA, oElse]
    · have hk2 : ¬ k = t := fun h => ht h.symm
      cases hm : lookupA m t <;> simp [oElse, lookupA, ht, hk2]

theorem lookupA_foldl_ins (v : Nat) :
    ∀ (ds : List Nat) (m : List (Nat × Nat)) (t : Nat),
    lookupA (ds.foldl (fun acc d => insIfAbsent acc d v) m) t =
      oElse (lookupA m t) (if t ∈ ds then some v else none) := by
  intro ds
  induction ds with
  | nil => intro m t; cases h : lookupA m t <;> simp [oElse, h]
  | cons d rest ih =>
    intro m t
    rw [List.foldl_cons, ih, lookupA_insIfAbsent, oElse_assoc]
    congr 1
    by_cases h1 : t = d
    · subst h1
      simp [oElse]
    · by_cases h2 : t ∈ rest <;> simp [oElse, h1, h2]

theorem lookupA_lastUseLoop (sched : List Nat) (depsOf : Nat → List Nat) :
    ∀ (n : Nat) (m : List (Nat × Nat)) (t : Nat),
    lookupA (lastUseLoop sched depsOf n m) t =
      oElse (lookupA m t) (findMaxIdx (luProp sched depsOf t) n) := by
  intro n
  induction n with
  | zero =>
    intro m t
    cases h : lookupA m t <;> simp [lastUseLoop, findMaxIdx, oElse, h]
  | succ n ih =>
    intro m t
    rw [lastUseLoop, ih, lookupA_insIfAbsent, lookupA_foldl_ins,
      oElse_assoc, oElse_assoc]
    congr 1
    rw [show findMaxIdx (luProp sched depsOf t) (n + 1) =
      if luProp sched depsOf t n then some n
      else findMaxIdx (luProp sched depsOf t) n from rfl]
    by_cases h1 : t ∈ depsOf (sched.getD n 0)
    · rw [if_pos h1, if_pos (show luProp sched depsOf t n = true by
        unfold luProp
        rw [decide_eq_true h1]
        rfl)]
      rfl
    · rw [if_neg h1]
      by_cases h2 : sched.getD n 0 = t
      · rw [if_pos h2.symm, if_pos (show luProp sched depsOf t n = true by
          unfold luProp
          rw [decide_eq_true h2]
          simp)]
        rfl
      · rw [if_neg (fun hc => h2 hc.symm)]
        rw [if_neg (show ¬ (luProp sched depsOf t n = true) by
          unfold luProp
          rw [decide_eq_false h1, decide_eq_false h2]
          simp)]
        rfl

/-- The value of `last_use_index` for every task: the largest schedule index
referencing it, and `len + 1` for an unreferenced cached task. -/
theorem luFun_eq (sched : List Nat) (depsOf : Nat → List Nat)
    (cachedKeys : List Nat) (t : Nat) :
    luFun sched depsOf cachedKeys t =
      oElse (findMaxIdx (luProp sched depsOf t) sched.length)
        (if t ∈ cachedKeys then some (sched.length + 1) else none) := by
  unfold luFun lastUseIndex
  rw [lookupA_foldl_ins, lookupA_lastUseLoop]
  simp [lookupA, oElse]

theorem luFun_ge_of_prop {sched : List Nat} {depsOf : Nat → List Nat}
    {cachedKeys : List Nat} {t i : Nat} (hi : i < sched.length)
    (hp : luProp sched depsOf t i = true) :
    ∃ m, luFun sched depsOf cachedKeys t = some m ∧ i ≤ m ∧
      m < sched.length := by
  obtain ⟨r, hr1, hr2⟩ := findMaxIdx_ge hi hp
  obtain ⟨hrl, _, _⟩ := findMaxIdx_eq_some hr1
  refine ⟨r, ?_, hr2, hrl⟩
  rw [luFun_eq, hr1]
  rfl

theorem luFun_isSome_of_cached {sched : List Nat} {depsOf : Nat → List Nat}
    {cachedKeys : List Nat} {t : Nat} (hc : t ∈ cachedKeys) :
    (luFun sched depsOf cachedKeys t).isSome := by
  rw [luFun_eq]
  cases h : findMaxIdx (luProp sched depsOf t) sched.length <;>
    simp [oElse, hc]

theorem luFun_max {sched : List Nat} {depsOf : Nat → List Nat}
    {cachedKeys : List Nat} {t m : Nat}
    (h : luFun sched depsOf cachedKeys t = some m) (hm : m < sched.length) :
    luProp sched depsOf t m = true ∧
      ∀ k, m < k → k < sched.length → luProp sched depsOf t k = false := by
  rw [luFun_eq] at h
  cases hf : findMaxIdx (luProp sched depsOf t) sched.length with
  | none =>
    rw [hf] at h
    by_cases hc : t ∈ cachedKeys
    · rw [if_pos hc] at h
      simp [oElse] at h
      omega
    · rw [if_neg hc] at h
      simp [oElse] at h
  | some r =>
    rw [hf] at h
    simp only [oElse] at h
    injection h with h2
    subst h2
    obtain ⟨h1, h2, h3⟩ := findMaxIdx_eq_some hf
    exact ⟨h2, h3⟩

/-! ### The main pass of run -/

theorem getD_of_lt {l : List Nat} {i : Nat} (hi : i < l.length) :
    l.getD i 0 = l[i] := by
  rw [List.getD_eq_getElem?_getD, List.getElem?_eq_getElem hi]
  rfl

theorem luProp_self {sched : List Nat} {depsOf : Nat → List Nat} {i : Nat}
    (hi : i < sched.length) : luProp sched depsOf sched[i] i = true := by
  unfold luProp
  rw [getD_of_lt hi]
  simp

theorem luProp_dep {sched : List Nat} {depsOf : Nat → List Nat} {d i : Nat}
    (hi : i < sched.length) (hd : d ∈ depsOf sched[i]) :
    luProp sched depsOf d i = true := by
  unfold luProp
  rw [getD_of_lt hi]
  simp [hd]

theorem take_succ_getElem {α : Type _} (l : List α) (i : Nat)
    (hi : i < l.length) : l.take (i + 1) = l.take i ++ [l[i]] := by
  rw [List.take_succ, List.getElem?_eq_getElem hi]
  rfl

theorem resolveArgs_ok {V : Type} (G : TaskGraph V) (store : List (Nat × V))
    (useMath : Bool) :
    ∀ (l : List (String × Nat)), (∀ p ∈ l, (lookupA store p.2).isSome) →
    ∃ resolved, resolveArgs G store useMath l = Except.ok resolved := by
  intro l
  induction l with
  | nil => intro _; exact ⟨[], rfl⟩
  | cons p rest ih =>
    intro h
    obtain ⟨n, d⟩ := p
    obtain ⟨v, hv⟩ :=
      Option.isSome_iff_exists.mp (h (n, d) (List.mem_cons_self _ _))
    obtain ⟨tail, htail⟩ := ih (fun q hq => h q (List.mem_cons_of_mem _ hq))
    refine ⟨(n, if useMath then G.moveMath v else v) :: tail, ?_⟩
    unfold resolveArgs
    rw [hv, htail]
    rfl

theorem execList_append {V : Type} (G : TaskGraph V) (targets : List Nat)
    (lu : Nat → Option Nat) :
    ∀ (l1 l2 : List Nat) (s : Nat) (st : ExecState V),
    execList G targets lu s (l1 ++ l2) st =
      match execList G targets lu s l1 st with
      | Except.error e => Except.error e
      | Except.ok st1 => execList G targets lu (s + l1.length) l2 st1 := by
  intro l1
  induction l1 with
  | nil => intro l2 s st; simp [execList]
  | cons t rest ih =>
    intro l2 s st
    rw [List.cons_append]
    show (match execStep G targets lu s t st with
      | Except.error e => Except.error e
      | Except.ok st1 => execList G targets lu (s + 1) (rest ++ l2) st1) = _
    cases hstep : execStep G targets lu s t st with
    | error e => simp [execList, hstep]
    | ok st1 =>
      simp only [execList, hstep]
      rw [ih]
      cases h2 : execList G targets lu (s + 1) rest st1 with
      | error e => rfl
      | ok st2 =>
        have harith : s + 1 + rest.length = s + (rest.length + 1) := by omega
        rw [harith]
        rfl

theorem execList_single {V : Type} (G : TaskGraph V) (targets : List Nat)
    (lu : Nat → Option Nat) (s t : Nat) (st : ExecState V) :
    execList G targets lu s [t] st = execStep G targets lu s t st := by
  cases h : execStep G targets lu s t st <;> simp [execList, h]

theorem execStep_eval {V : Type} (G : TaskGraph V) (targets : List Nat)
    (lu : Nat → Option Nat) (i t : Nat) (st : ExecState V)
    {resolved : List (String × V)}
    (hres : resolveArgs G st.values (G.usesAccelerator t) (G.args t) =
      Except.ok resolved)
    (hall : (setA st.values t (G.moveStorage (G.exec t resolved))).all
      (fun p => (lu p.1).isSome) = true) :
    execStep G targets lu i t st = Except.ok
      ⟨(setA st.values t (G.moveStorage (G.exec t resolved))).filter
        (fun p => decide (i < (lu p.1).getD 0)),
       if t ∈ targets then
         st.emitted ++ [(t, G.moveStorage (G.exec t resolved))]
       else st.emitted⟩ := by
  unfold execStep
  rw [hres]
  simp only []
  by_cases ht : t ∈ targets
  · rw [if_pos ht, lookupA_setA, if_pos rfl]
    simp only []
    rw [if_pos hall, if_pos ht]
  · rw [if_neg ht]
    simp only []
    rw [if_pos hall, if_neg ht]

/-- The store contents between run steps: after `i` steps the store holds
exactly the cached values and already-produced results whose last use has not
yet passed; the emitted pairs are exactly the targets among the first `i`
scheduled tasks, in schedule order. -/
theorem runUpTo_char {V : Type} {G : TaskGraph V} {targets cached : List Nat}
    {fuel : Nat} {dm : List (Nat × List Nat)} {sched : List Nat}
    {cachedVals : List (Nat × V)}
    (hck : cached = cachedVals.map Prod.fst)
    (hdm : buildDeps G cached fuel targets = some dm)
    (hs : scheduleOf G targets cached dm = some sched) :
    ∀ i, i ≤ sched.length →
    ∃ st, runUpTo G targets cachedVals dm sched i = Except.ok st ∧
      (∀ k, (lookupA st.values k).isSome ↔
        ((k ∈ cached ∨ k ∈ sched.take i) ∧
          (i = 0 ∨ ∃ m, luFun sched (depsOfDM dm) cached k = some m ∧
            i ≤ m))) ∧
      st.emitted.map Prod.fst =
        (sched.take i).filter (fun t => decide (t ∈ targets)) := by
  obtain ⟨hsnd, hsmem, hsord⟩ := scheduleOf_spec hdm hs
  intro i
  induction i with
  | zero =>
    intro _
    refine ⟨initState cachedVals, rfl, ?_, by simp [initState]⟩
    intro k
    rw [lookupA_isSome_iff]
    simp [initState, hck]
  | succ i ih =>
    intro hi1
    have hi : i < sched.length := by omega
    obtain ⟨st, hok, hchar, hemit⟩ := ih (by omega)
    have htmem : sched[i] ∈ sched := List.getElem_mem hi
    obtain ⟨⟨ds, hds⟩, htc⟩ := (hsmem sched[i]).mp htmem
    have hshape := buildDeps_entry hdm hds
    rw [if_neg htc] at hshape
    have hlook : lookupA dm sched[i] = some ds :=
      lookupA_eq_of_mem (buildDeps_keys_nodup hdm) hds
    have hdepsOf : depsOfDM dm sched[i] = ds := by
      rw [depsOfDM, hlook]
      rfl
    have hpresent : ∀ p ∈ G.args sched[i], (lookupA st.values p.2).isSome := by
      intro p hp
      have hdarg : p.2 ∈ argIds G sched[i] := List.mem_map_of_mem Prod.snd hp
      have hdds : p.2 ∈ depsOfDM dm sched[i] := by
        rw [hdepsOf, hshape]
        exact mem_dedupList.mpr hdarg
      have hlu : ∃ m, luFun sched (depsOfDM dm) cached p.2 = some m ∧
          i ≤ m ∧ m < sched.length :=
        luFun_ge_of_prop hi (luProp_dep hi hdds)
      rw [hchar p.2]
      constructor
      · by_cases hc : p.2 ∈ cached
        · exact Or.inl hc
        · obtain ⟨j, hji, hj, hjg⟩ := hsord i hi p.2 hdds hc
          exact Or.inr (mem_take_iff_get.mpr ⟨j, hji, hj, hjg⟩)
      · obtain ⟨m, hm1, hm2, _⟩ := hlu
        exact Or.inr ⟨m, hm1, hm2⟩
    obtain ⟨resolved, hres⟩ := resolveArgs_ok G st.values
      (G.usesAccelerator sched[i]) (G.args sched[i]) hpresent
    have hall : (setA st.values sched[i]
        (G.moveStorage (G.exec sched[i] resolved))).all
        (fun p => (luFun sched (depsOfDM dm) cached p.1).isSome) = true := by
      rw [List.all_eq_true]
      intro p hp
      have hk : (lookupA (setA st.values sched[i]
          (G.moveStorage (G.exec sched[i] resolved))) p.1).isSome := by
        rw [lookupA_isSome_iff]
        exact List.mem_map_of_mem Prod.fst hp
      rw [lookupA_setA] at hk
      by_cases hkt : sched[i] = p.1
      · obtain ⟨m, hm1, _, _⟩ :=
          @luFun_ge_of_prop sched (depsOfDM dm) cached sched[i] i hi
            (luProp_self hi)
        rw [← hkt, hm1]
        rfl
      · rw [if_neg hkt] at hk
        rw [hchar p.1] at hk
        obtain ⟨hin, _⟩ := hk
        rcases hin with hc | htk
        · exact luFun_isSome_of_cached hc
        · obtain ⟨j, hji, hj, hjg⟩ := mem_take_iff_get.mp htk
          obtain ⟨m, hm1, _, _⟩ :=
            @luFun_ge_of_prop sched (depsOfDM dm) cached sched[j] j hj
              (luProp_self hj)
          rw [hjg] at hm1
          rw [hm1]
          rfl
    have hstep := execStep_eval G targets
      (luFun sched (depsOfDM dm) cached) i sched[i] st hres hall
    have hrun : runUpTo G targets cachedVals dm sched (i + 1) =
        execStep G targets (luFun sched (depsOfDM dm) cached) i sched[i] st := by
      unfold runUpTo
      rw [take_succ_getElem sched i hi, execList_append]
      have hok2 : execList G targets
          (luFun sched (depsOfDM dm) (cachedVals.map Prod.fst)) 0
          (sched.take i) (initState cachedVals) = Except.ok st := hok
      rw [hok2, ← hck]
      simp only []
      rw [List.length_take, Nat.min_eq_left (by omega), execList_single]
      norm_num
    rw [hrun, hstep]
    refine ⟨_, rfl, ?_, ?_⟩
    · intro k
      simp only []
      rw [lookupA_filter_key (fun k =>
        decide (i < (luFun sched (depsOfDM dm) cached k).getD 0))]
      constructor
      · intro hk
        by_cases hcond : i < (luFun sched (depsOfDM dm) cached k).getD 0
        · rw [if_pos (by simpa using hcond)] at hk
          rw [lookupA_setA] at hk
          cases hlu : luFun sched (depsOfDM dm) cached k with
          | none => rw [hlu] at hcond; simp at hcond
          | some m =>
            rw [hlu] at hcond
            simp only [Option.getD_some] at hcond
            refine ⟨?_, Or.inr ⟨m, rfl, by omega⟩⟩
            by_cases hkt : sched[i] = k
            · refine Or.inr ?_
              rw [take_succ_getElem sched i hi]
              exact List.mem_append.mpr (Or.inr (by simp [hkt]))
            · rw [if_neg hkt] at hk
              rw [hchar k] at hk
              obtain ⟨hin, _⟩ := hk
              rcases hin with hc | htk
              · exact Or.inl hc
              · refine Or.inr ?_
                rw [take_succ_getElem sched i hi]
                exact List.mem_append.mpr (Or.inl htk)
        · rw [if_neg (by simpa using hcond)] at hk
          simp at hk
      · rintro ⟨hin, hor⟩
        rcases hor with h0 | ⟨m, hm, him⟩
        · omega
        · rw [if_pos (by simp [hm]; omega)]
          rw [lookupA_setA]
          by_cases hkt : sched[i] = k
          · simp [hkt]
          · rw [if_neg hkt]
            rw [hchar k]
            refine ⟨?_, Or.inr ⟨m, hm, by omega⟩⟩
            rcases hin with hc | htk
            · exact Or.inl hc
            · rw [take_succ_getElem sched i hi] at htk
              rcases List.mem_append.mp htk with h2 | h2
              · exact Or.inr h2
              · simp at h2
                exact absurd h2.symm hkt
    · simp only []
      rw [take_succ_getElem sched i hi, List.filter_append]
      by_cases ht : sched[i] ∈ targets
      · rw [if_pos ht]
        simp [hemit, ht]
      · rw [if_neg ht]
        simp [hemit, ht]

theorem runMain_eq_runUpTo {V : Type} (G : TaskGraph V) (targets : List Nat)
    (cachedVals : List (Nat × V)) (dm : List (Nat × List Nat))
    (sched : List Nat) :
    runMain G targets cachedVals dm sched =
      runUpTo G targets cachedVals dm sched sched.length := by
  unfold runMain runUpTo
  rw [List.take_length]

/-- Membership in a prefix of a duplicate-free schedule is position order. -/
theorem nodup_mem_take {sched : List Nat} (hnd : sched.Nodup) {i : Nat}
    (hi : i < sched.length) {j : Nat} :
    sched[i] ∈ sched.take j ↔ i < j := by
  constructor
  · intro h
    obtain ⟨p, hpj, hp, hpg⟩ := mem_take_iff_get.mp h
    have : p = i := nodup_getElem?_inj hnd
      (by rw [List.getElem?_eq_getElem hp, hpg])
      (by rw [List.getElem?_eq_getElem hi])
    omega
  · intro h
    exact mem_take_iff_get.mpr ⟨i, h, hi, rfl⟩

/-- When a task is about to run, every declared dependency's value is in the
store: the `values[dep]` lookup of the main pass cannot fail. -/
theorem runUpTo_deps_present {V : Type} {G : TaskGraph V}
    {targets cached : List Nat} {fuel : Nat} {dm : List (Nat × List Nat)}
    {sched : List Nat} {cachedVals : List (Nat × V)}
    (hck : cached = cachedVals.map Prod.fst)
    (hdm : buildDeps G cached fuel targets = some dm)
    (hs : scheduleOf G targets cached dm = some sched) :
    ∀ i (hi : i < sched.length), ∃ st,
      runUpTo G targets cachedVals dm sched i = Except.ok st ∧
      ∀ p ∈ G.args sched[i], (lookupA st.values p.2).isSome := by
  obtain ⟨hsnd, hsmem, hsord⟩ := scheduleOf_spec hdm hs
  intro i hi
  obtain ⟨st, hok, hchar, _⟩ := runUpTo_char hck hdm hs i (by omega)
  refine ⟨st, hok, ?_⟩
  have htmem : sched[i] ∈ sched := List.getElem_mem hi
  obtain ⟨⟨ds, hds⟩, htc⟩ := (hsmem sched[i]).mp htmem
  have hshape := buildDeps_entry hdm hds
  rw [if_neg htc] at hshape
  have hlook : lookupA dm sched[i] = some ds :=
    lookupA_eq_of_mem (buildDeps_keys_nodup hdm) hds
  have hdepsOf : depsOfDM dm sched[i] = ds := by
    rw [depsOfDM, hlook]
    rfl
  intro p hp
  have hdarg : p.2 ∈ argIds G sched[i] := List.mem_map_of_mem Prod.snd hp
  have hdds : p.2 ∈ depsOfDM dm sched[i] := by
    rw [hdepsOf, hshape]
    exact mem_dedupList.mpr hdarg
  obtain ⟨m, hm1, hm2, _⟩ :=
    @luFun_ge_of_prop sched (depsOfDM dm) cached p.2 i hi
      (luProp_dep hi hdds)
  rw [hchar p.2]
  refine ⟨?_, Or.inr ⟨m, hm1, hm2⟩⟩
  by_cases hc : p.2 ∈ cached
  · exact Or.inl hc
  · obtain ⟨j, hji, hj, hjg⟩ := hsord i hi p.2 hdds hc
    exact Or.inr (mem_take_iff_get.mpr ⟨j, hji, hj, hjg⟩)

/-- A ranking function certifies acyclicity of a dependency relation. -/
theorem acyclic_of_rank {R : Nat → Nat → Prop} (rank : Nat → Nat)
    (h : ∀ d t, R d t → rank d < rank t) :
    ∀ t, ¬ Relation.TransGen R t t := by
  intro t htg
  have mono : ∀ a b, Relation.TransGen R a b → rank a < rank b := by
    intro a b h2
    induction h2 with
    | single hr => exact h _ _ hr
    | tail _ hr ih => exact lt_trans ih (h _ _ hr)
  exact lt_irrefl _ (mono t t htg)

/-! ### Schedule construction is independent of the execute operations -/

theorem compareKey_withExec {V : Type} (G : TaskGraph V)
    (e : Nat → List (String × V) → V) :
    compareKey (withExec G e) = compareKey G := rfl

theorem buildDepsLoop_exec_indep {V : Type} (G : TaskGraph V)
    (e : Nat → List (String × V) → V) (cached : List Nat) :
    ∀ (fuel : Nat) (stack : List Nat) (acc : List (Nat × List Nat)),
    buildDepsLoop (withExec G e) cached fuel stack acc =
      buildDepsLoop G cached fuel stack acc := by
  intro fuel
  induction fuel with
  | zero => intro stack acc; cases stack <;> rfl
  | succ fuel ih =>
    intro stack acc
    cases stack with
    | nil => rfl
    | cons child rest =>
      show (if (lookupA acc child).isSome then
          buildDepsLoop (withExec G e) cached fuel rest acc
        else if child ∈ cached then
          buildDepsLoop (withExec G e) cached fuel rest (acc ++ [(child, [])])
        else buildDepsLoop (withExec G e) cached fuel
          ((argIds (withExec G e) child).reverse ++ rest)
          (acc ++ [(child, dedupList (argIds (withExec G e) child))])) = _
      rw [buildDepsLoop]
      by_cases hp : (lookupA acc child).isSome
      · rw [if_pos hp, if_pos hp, ih]
      · rw [if_neg hp, if_neg hp]
        by_cases hc : child ∈ cached
        · rw [if_pos hc, if_pos hc, ih]
        · rw [if_neg hc, if_neg hc]
          show buildDepsLoop (withExec G e) cached fuel
              ((argIds G child).reverse ++ rest)
              (acc ++ [(child, dedupList (argIds G child))]) = _
          rw [ih]

theorem buildDeps_exec_indep {V : Type} (G : TaskGraph V)
    (e : Nat → List (String × V) → V) (cached : List Nat) (fuel : Nat)
    (targets : List Nat) :
    buildDeps (withExec G e) cached fuel targets =
      buildDeps G cached fuel targets :=
  buildDepsLoop_exec_indep G e cached fuel targets.reverse []

theorem scheduleOf_exec_indep {V : Type} (G : TaskGraph V)
    (e : Nat → List (String × V) → V) (targets cached : List Nat)
    (dm : List (Nat × List Nat)) :
    scheduleOf (withExec G e) targets cached dm =
      scheduleOf G targets cached dm := by
  unfold scheduleOf
  rw [compareKey_withExec]

/-! ### The claims -/

/-- Every declared dependency in the chain graph has a smaller task id than
its dependent, certifying acyclicity. -/
theorem gchain_dep_lt : ∀ d t, depEdge GChain [] [3] d t → d < t := by
  intro d t h
  obtain ⟨_, _, harg⟩ := h
  rcases t with _ | _ | _ | _ | t
  · simp [argIds, GChain] at harg
  · simp [argIds, GChain] at harg
    omega
  · simp [argIds, GChain] at harg
    omega
  · simp [argIds, GChain] at harg
    omega
  · simp [argIds, GChain] at harg

/-- Claim C1: for any targets whose collected dependency relation is acyclic
and any cached-values mapping, `_make_schedule` succeeds and the schedule
contains exactly the tasks reachable from the targets without descending past
a cached task, each exactly once (the schedule has no duplicates), excludes
every cached task, includes every non-cached requested target, and places
every task after all of its non-cached declared dependencies. -/
theorem claim1_schedule_correct {V : Type} {G : TaskGraph V}
    {targets cached : List Nat} {fuel : Nat} {dm : List (Nat × List Nat)}
    (hdm : buildDeps G cached fuel targets = some dm)
    (hacyc : ∀ t, ¬ Relation.TransGen (depEdge G cached targets) t t) :
    ∃ sched, scheduleOf G targets cached dm = some sched ∧
      sched.Nodup ∧
      (∀ t, t ∈ sched ↔ Reaches G cached targets t ∧ t ∉ cached) ∧
      (∀ t ∈ cached, t ∉ sched) ∧
      (∀ t ∈ targets, t ∉ cached → t ∈ sched) ∧
      ∀ i (hi : i < sched.length), ∀ d ∈ argIds G sched[i], d ∉ cached →
        ∃ j, j < i ∧ ∃ hj : j < sched.length, sched[j] = d := by
  obtain ⟨sched, hs⟩ := scheduleOf_isSome_of_acyclic hdm hacyc
  obtain ⟨hnd, hmem, hord⟩ := scheduleOf_spec hdm hs
  have hmem2 : ∀ t, t ∈ sched ↔ Reaches G cached targets t ∧ t ∉ cached := by
    intro t
    rw [hmem t]
    constructor
    · rintro ⟨⟨ds, hds⟩, hc⟩
      exact ⟨buildDeps_keys_reach hdm hds, hc⟩
    · rintro ⟨hre, hc⟩
      exact ⟨buildDeps_reach_mem hdm hre, hc⟩
  refine ⟨sched, hs, hnd, hmem2, ?_, ?_, ?_⟩
  · intro t htc hmemt
    exact ((hmem2 t).mp hmemt).2 htc
  · intro t ht htc
    exact (hmem t).mpr ⟨buildDeps_target_mem hdm ht, htc⟩
  · intro i hi d hd hdc
    obtain ⟨⟨ds, hds⟩, htc⟩ := (hmem sched[i]).mp (List.getElem_mem hi)
    have hshape := buildDeps_entry hdm hds
    rw [if_neg htc] at hshape
    have hdds : d ∈ depsOfDM dm sched[i] := by
      rw [depsOfDM, lookupA_eq_of_mem (buildDeps_keys_nodup hdm) hds]
      rw [Option.getD_some, hshape]
      exact mem_dedupList.mpr hd
    exact hord i hi d hdds hdc

/-- Witness for C1: the four-task chain with target D. -/
theorem claim1_witness :
    buildDeps GChain [] 20 [3] = some [(3,[2]),(2,[1]),(1,[0]),(0,[])] ∧
    ∃ sched,
      scheduleOf GChain [3] [] [(3,[2]),(2,[1]),(1,[0]),(0,[])] =
        some sched ∧
      sched.Nodup ∧
      (∀ t, t ∈ sched ↔ Reaches GChain [] [3] t ∧ t ∉ ([] : List Nat)) ∧
      (∀ t ∈ ([] : List Nat), t ∉ sched) ∧
      (∀ t ∈ [3], t ∉ ([] : List Nat) → t ∈ sched) ∧
      ∀ i (hi : i < sched.length), ∀ d ∈ argIds GChain sched[i],
        d ∉ ([] : List Nat) →
        ∃ j, j < i ∧ ∃ hj : j < sched.length, sched[j] = d :=
  ⟨by decide, claim1_schedule_correct
    (by decide :
      buildDeps GChain [] 20 [3] = some [(3,[2]),(2,[1]),(1,[0]),(0,[])])
    (acyclic_of_rank (fun x => x) gchain_dep_lt)⟩

/-- Claim C2: during `run`, the value produced at schedule position `i` is
present in the store exactly between the end of step `i` and the end of step
`m`, where `m` is its last-use index: `m` bounds every consumer's schedule
position from above and, unless `m = i`, position `m` holds a consumer.
Concretely, in the chain A=0 <- B=1 <- C=2 <- D=3 with only D targeted, A's
value is absent from the store immediately after B runs and B's value is
absent immediately after C runs; and in the fan-out where B and C both
depend on A with targets [B, C], A's value is still present after the first
consumer ran and absent only after both did. -/
theorem claim2_eviction_at_last_use {V : Type} {G : TaskGraph V}
    {targets cached : List Nat} {fuel : Nat} {dm : List (Nat × List Nat)}
    {sched : List Nat} {cachedVals : List (Nat × V)}
    (hck : cached = cachedVals.map Prod.fst)
    (hdm : buildDeps G cached fuel targets = some dm)
    (hs : scheduleOf G targets cached dm = some sched)
    {i : Nat} (hi : i < sched.length) {m : Nat}
    (hlu : luFun sched (depsOfDM dm) cached sched[i] = some m) :
    (i ≤ m ∧ m < sched.length ∧
      (∀ k (hk : k < sched.length), sched[i] ∈ depsOfDM dm sched[k] →
        k ≤ m) ∧
      (m ≠ i → sched[i] ∈ depsOfDM dm (sched.getD m 0))) ∧
    (∀ j, j ≤ sched.length → ∃ st,
      runUpTo G targets cachedVals dm sched j = Except.ok st ∧
      ((lookupA st.values sched[i]).isSome ↔ (i < j ∧ j ≤ m))) ∧
    (runUpTo GChain [3] [] [(3,[2]),(2,[1]),(1,[0]),(0,[])] [0,1,2,3] 2 =
        Except.ok ⟨[(1, 10)], []⟩ ∧
      runUpTo GChain [3] [] [(3,[2]),(2,[1]),(1,[0]),(0,[])] [0,1,2,3] 3 =
        Except.ok ⟨[(2, 30)], []⟩) ∧
    (runUpTo GFan [1,2] [] [(2,[0]),(0,[]),(1,[0])] [0,2,1] 2 =
        Except.ok ⟨[(0, 0)], [(2, 20)]⟩ ∧
      runUpTo GFan [1,2] [] [(2,[0]),(0,[]),(1,[0])] [0,2,1] 3 =
        Except.ok ⟨[], [(2, 20), (1, 10)]⟩) := by
  obtain ⟨hnd, hsmem, hsord⟩ := scheduleOf_spec hdm hs
  obtain ⟨m', hm'1, hm'2, hm'3⟩ :=
    @luFun_ge_of_prop sched (depsOfDM dm) cached sched[i] i hi
      (luProp_self hi)
  rw [hlu] at hm'1
  injection hm'1 with hmm
  subst hmm
  refine ⟨⟨hm'2, hm'3, ?_, ?_⟩, ?_, ⟨by decide, by decide⟩,
    ⟨by decide, by decide⟩⟩
  · intro k hk hcons
    by_contra hgt
    push_neg at hgt
    have hmax := (luFun_max hlu hm'3).2 k hgt hk
    rw [luProp_dep hk hcons] at hmax
    exact absurd hmax (by decide)
  · intro hne
    have hpm := (luFun_max hlu hm'3).1
    unfold luProp at hpm
    rcases Bool.or_eq_true_iff.mp hpm with h1 | h2
    · exact of_decide_eq_true h1
    · exfalso
      have h3 := of_decide_eq_true h2
      rw [getD_of_lt hm'3] at h3
      exact hne (nodup_getElem?_inj hnd
        (by rw [List.getElem?_eq_getElem hm'3, h3])
        (by rw [List.getElem?_eq_getElem hi]))
  · intro j hj
    obtain ⟨st, hok, hchar, _⟩ := runUpTo_char hck hdm hs j hj
    refine ⟨st, hok, ?_⟩
    rw [hchar sched[i]]
    have hnc : sched[i] ∉ cached :=
      ((hsmem sched[i]).mp (List.getElem_mem hi)).2
    constructor
    · rintro ⟨hmem1, hmem2⟩
      have hij : i < j := by
        rcases hmem1 with hc | htake
        · exact absurd hc hnc
        · exact (nodup_mem_take hnd hi).mp htake
      refine ⟨hij, ?_⟩
      rcases hmem2 with h0 | ⟨m2, hm2, hjm2⟩
      · omega
      · rw [hlu] at hm2
        injection hm2 with he
        omega
    · rintro ⟨hij, hjm⟩
      exact ⟨Or.inr ((nodup_mem_take hnd hi).mpr hij),
        Or.inr ⟨m, hlu, hjm⟩⟩

/-- Witness for C2: in the chain, A=0 (schedule position 0) has last-use
index 1 and its value is gone from the store right after step 2 (the step
at index 1, B's execution, is complete). -/
theorem claim2_witness :
    ([] : List Nat) = (([] : List (Nat × Nat)).map Prod.fst) ∧
    buildDeps GChain [] 20 [3] = some [(3,[2]),(2,[1]),(1,[0]),(0,[])] ∧
    scheduleOf GChain [3] [] [(3,[2]),(2,[1]),(1,[0]),(0,[])] =
      some [0,1,2,3] ∧
    luFun [0,1,2,3] (depsOfDM [(3,[2]),(2,[1]),(1,[0]),(0,[])]) []
      (([0,1,2,3] : List Nat)[0]) = some 1 ∧
    (∃ st, runUpTo GChain [3] [] [(3,[2]),(2,[1]),(1,[0]),(0,[])]
        [0,1,2,3] 2 = Except.ok st ∧
      ((lookupA st.values (([0,1,2,3] : List Nat)[0])).isSome ↔
        (0 < 2 ∧ 2 ≤ 1))) :=
  ⟨rfl, by decide, by decide, by decide,
    (claim2_eviction_at_last_use rfl
      (by decide :
        buildDeps GChain [] 20 [3] = some [(3,[2]),(2,[1]),(1,[0]),(0,[])])
      (by decide) (by decide) (by decide)).2.1 2 (by decide)⟩

/-- Claim C3: a cyclic dependency relation makes `_make_schedule` fail with
the cycle error, and this happens independently of every task's execute
operation: the same failure occurs with the execute operations replaced
arbitrarily, so no result of any execution is ever consulted (zero tasks
executed). -/
theorem claim3_cycle_fails_construction {V : Type} {G : TaskGraph V}
    {targets cached : List Nat} {fuel : Nat} {dm : List (Nat × List Nat)}
    (hdm : buildDeps G cached fuel targets = some dm)
    (hcyc : ∃ t, Relation.TransGen (depEdge G cached targets) t t) :
    scheduleOf G targets cached dm = none ∧
    ∀ e2 : Nat → List (String × V) → V,
      buildDeps (withExec G e2) cached fuel targets = some dm ∧
      scheduleOf (withExec G e2) targets cached dm = none := by
  obtain ⟨t, hcyc⟩ := hcyc
  have h1 := scheduleOf_none_of_cycle hdm hcyc
  refine ⟨h1, ?_⟩
  intro e2
  rw [buildDeps_exec_indep, scheduleOf_exec_indep]
  exact ⟨hdm, h1⟩

/-- Witness for C3: the two-task cycle 0 <-> 1 with target 0. -/
theorem claim3_witness :
    buildDeps GCycle [] 20 [0] = some [(0, [1]), (1, [0])] ∧
    scheduleOf GCycle [0] [] [(0, [1]), (1, [0])] = none := by
  have hre1 : Reaches GCycle [] [0] 1 :=
    Reaches.child (t := 0) (Reaches.target (by decide)) (by decide)
      (by decide)
  have hr01 : depEdge GCycle [] [0] 0 1 := ⟨hre1, by decide, by decide⟩
  have hr10 : depEdge GCycle [] [0] 1 0 :=
    ⟨Reaches.target (by decide), by decide, by decide⟩
  exact ⟨by decide, (claim3_cycle_fails_construction
    (by decide : buildDeps GCycle [] 20 [0] = some [(0, [1]), (1, [0])])
    ⟨0, Relation.TransGen.head hr01 (Relation.TransGen.single hr10)⟩).1⟩

/-- Counterexample to C4 as stated: a requested target that is supplied in
the cached-values mapping is excluded from the schedule, and `run` yields no
pair at all for it, so the output does not contain one pair per requested
target. -/
theorem claim4_counterexample :
    (0 ∈ ([0] : List Nat)) ∧
    buildDeps GLeaf [0] 20 [0] = some [(0, [])] ∧
    scheduleOf GLeaf [0] [0] [(0, [])] = some [] ∧
    runMain GLeaf [0] [(0, 7)] [(0, [])] [] =
      Except.ok (ExecState.mk [(0, 7)] []) := by decide

/-- Claim C4 (amended): the sequence produced by `run` lists, in schedule
order, exactly the scheduled tasks that are requested targets: each
non-cached requested target is emitted exactly once, and a requested target
present in the cached-values mapping is never emitted. -/
theorem claim4_emits_noncached_targets {V : Type} {G : TaskGraph V}
    {targets cached : List Nat} {fuel : Nat} {dm : List (Nat × List Nat)}
    {sched : List Nat} {cachedVals : List (Nat × V)}
    (hck : cached = cachedVals.map Prod.fst)
    (hdm : buildDeps G cached fuel targets = some dm)
    (hs : scheduleOf G targets cached dm = some sched) :
    ∃ st, runMain G targets cachedVals dm sched = Except.ok st ∧
      st.emitted.map Prod.fst =
        sched.filter (fun t => decide (t ∈ targets)) ∧
      (∀ t ∈ targets, t ∉ cached →
        (st.emitted.map Prod.fst).count t = 1) ∧
      ∀ t ∈ targets, t ∈ cached →
        (st.emitted.map Prod.fst).count t = 0 := by
  obtain ⟨st, hok, _, hemit⟩ :=
    runUpTo_char hck hdm hs sched.length (le_refl _)
  obtain ⟨hnd, hmem, _⟩ := scheduleOf_spec hdm hs
  rw [List.take_length] at hemit
  refine ⟨st, by rw [runMain_eq_runUpTo]; exact hok, hemit, ?_, ?_⟩
  · intro t ht htc
    rw [hemit]
    refine List.count_eq_one_of_mem (List.Nodup.filter _ hnd) ?_
    rw [List.mem_filter]
    exact ⟨(hmem t).mpr ⟨buildDeps_target_mem hdm ht, htc⟩,
      decide_eq_true ht⟩
  · intro t ht htc
    rw [hemit, List.count_eq_zero]
    intro hc
    rw [List.mem_filter] at hc
    exact ((hmem t).mp hc.1).2 htc

/-- Witness for C4 (amended): the fan-out with targets requested as [B, C]
is emitted in schedule order [C, B]. -/
theorem claim4_witness :
    ([] : List Nat) = (([] : List (Nat × Nat)).map Prod.fst) ∧
    buildDeps GFan [] 20 [1, 2] = some [(2,[0]),(0,[]),(1,[0])] ∧
    scheduleOf GFan [1,2] [] [(2,[0]),(0,[]),(1,[0])] = some [0,2,1] ∧
    ∃ st, runMain GFan [1,2] [] [(2,[0]),(0,[]),(1,[0])] [0,2,1] =
        Except.ok st ∧
      st.emitted.map Prod.fst =
        ([0,2,1] : List Nat).filter (fun t => decide (t ∈ [1,2])) ∧
      (∀ t ∈ [1,2], t ∉ ([] : List Nat) →
        (st.emitted.map Prod.fst).count t = 1) ∧
      ∀ t ∈ [1,2], t ∈ ([] : List Nat) →
        (st.emitted.map Prod.fst).count t = 0 :=
  ⟨rfl, by decide, by decide,
    claim4_emits_noncached_targets rfl
      (by decide :
        buildDeps GFan [] 20 [1, 2] = some [(2,[0]),(0,[]),(1,[0])])
      (by decide)⟩

/-- Claim C5: with task A=0 supplied via cached values as 5 and sole target
B=1 computing its argument plus one, the schedule is exactly [B], and `run`
yields exactly (B, 6); A's execute operation (which would return the poison
value 999) is never invoked, as witnessed by the result and by the schedule
being unchanged under arbitrary replacement of all execute operations. -/
theorem claim5_cached_input_run :
    buildDeps GCachedGraph [0] 20 [1] = some [(1, [0]), (0, [])] ∧
    scheduleOf GCachedGraph [1] [0] [(1, [0]), (0, [])] = some [1] ∧
    runMain GCachedGraph [1] [(0, 5)] [(1, [0]), (0, [])] [1] =
      Except.ok (ExecState.mk [] [(1, 6)]) ∧
    (∀ vs, GCachedGraph.exec 0 vs = 999) ∧
    ∀ e2 : Nat → List (String × Nat) → Nat,
      scheduleOf (withExec GCachedGraph e2) [1] [0] [(1, [0]), (0, [])] =
        some [1] := by
  refine ⟨by decide, by decide, by decide, fun vs => rfl, fun e2 => ?_⟩
  rw [scheduleOf_exec_indep]
  decide

/-- Claim C6: at every step of the lexicographical topological sort, the
node placed next is ready (all its predecessors are already placed) and no
other ready node has a strictly smaller key; concretely, for leaves X=0 with
priority 1 and Y=1 with priority 5 under target Z=2 and no group labels,
the schedule orders Y before X. -/
theorem claim6_min_key_selection {V : Type} {G : TaskGraph V}
    {targets : List Nat} {dm : List (Nat × List Nat)} {order : List Nat}
    (hord : lexTopoSort (buildEdgeData dm targets).edges
      (compareKey G (buildEdgeData dm targets).nv) = some order) :
    (∀ i (hi : i < order.length),
      order[i] ∈ readySet (buildEdgeData dm targets).edges (order.take i) ∧
      ∀ c ∈ readySet (buildEdgeData dm targets).edges (order.take i),
        ¬ keyLt (compareKey G (buildEdgeData dm targets).nv c)
          (compareKey G (buildEdgeData dm targets).nv order[i])) ∧
    (buildDeps GPrio [] 20 [2] = some [(2, [0, 1]), (1, []), (0, [])] ∧
      scheduleOf GPrio [2] [] [(2, [0, 1]), (1, []), (0, [])] =
        some [1, 0, 2]) := by
  obtain ⟨_, _, hstep⟩ := lexTopoSort_spec hord
  exact ⟨hstep, by decide, by decide⟩

/-- Witness for C6: the priority example's integer graph; at the first step
the node for Y=1 is ready and carries the smallest key. -/
theorem claim6_witness :
    lexTopoSort (buildEdgeData [(2, [0, 1]), (1, []), (0, [])] [2]).edges
      (compareKey GPrio
        (buildEdgeData [(2, [0, 1]), (1, []), (0, [])] [2]).nv) =
      some [2, 0, 3, 1] ∧
    ((([2, 0, 3, 1] : List Nat)[0] ∈
        readySet (buildEdgeData [(2, [0, 1]), (1, []), (0, [])] [2]).edges
          (([2, 0, 3, 1] : List Nat).take 0)) ∧
      ∀ c ∈ readySet (buildEdgeData [(2, [0, 1]), (1, []), (0, [])] [2]).edges
          (([2, 0, 3, 1] : List Nat).take 0),
        ¬ keyLt
          (compareKey GPrio
            (buildEdgeData [(2, [0, 1]), (1, []), (0, [])] [2]).nv c)
          (compareKey GPrio
            (buildEdgeData [(2, [0, 1]), (1, []), (0, [])] [2]).nv
            (([2, 0, 3, 1] : List Nat)[0]))) :=
  ⟨by decide, (claim6_min_key_selection (G := GPrio)
    (by decide :
      lexTopoSort (buildEdgeData [(2, [0, 1]), (1, []), (0, [])] [2]).edges
        (compareKey GPrio
          (buildEdgeData [(2, [0, 1]), (1, []), (0, [])] [2]).nv) =
        some [2, 0, 3, 1])).1 0 (by decide)⟩

/-- Counterexample to C7 as stated: in the tie scenario (leaf A=0 with the
default empty label and priority 0, target B=1), the synthetic root and A's
node carry the same key (empty label, 0) and are both ready initially, yet
the sort places A's node 0 before the root node 2: ties are broken by node
insertion order, and real task nodes are inserted before the root. -/
theorem claim7_counterexample :
    buildDeps GTie [] 20 [1] = some [(1, [0]), (0, [])] ∧
    (buildEdgeData [(1, [0]), (0, [])] [1]).edges = [(0, 1), (2, 1)] ∧
    (buildEdgeData [(1, [0]), (0, [])] [1]).nv =
      [GNode.task 0, GNode.task 1, GNode.dummy] ∧
    (buildEdgeData [(1, [0]), (0, [])] [1]).dummyIdx = 2 ∧
    compareKey GTie [GNode.task 0, GNode.task 1, GNode.dummy] 2 =
      (emptyLabel, 0) ∧
    compareKey GTie [GNode.task 0, GNode.task 1, GNode.dummy] 0 =
      (emptyLabel, 0) ∧
    0 ∈ readySet [(0, 1), (2, 1)] [] ∧
    2 ∈ readySet [(0, 1), (2, 1)] [] ∧
    lexTopoSort [(0, 1), (2, 1)]
      (compareKey GTie [GNode.task 0, GNode.task 1, GNode.dummy]) =
      some [0, 2, 1] := by decide

/-- Claim C7 (amended): the synthetic root's sort key is (empty label, 0),
and whenever the root is ready it is placed before every ready node whose
key is strictly greater; with an equal key the earlier-inserted node wins,
which can be a real task node. -/
theorem claim7_root_min_key {V : Type} {G : TaskGraph V}
    {targets : List Nat} {dm : List (Nat × List Nat)} {order : List Nat}
    (hord : lexTopoSort (buildEdgeData dm targets).edges
      (compareKey G (buildEdgeData dm targets).nv) = some order) :
    compareKey G (buildEdgeData dm targets).nv
      (buildEdgeData dm targets).dummyIdx = (emptyLabel, 0) ∧
    ∀ i r, (buildEdgeData dm targets).dummyIdx ∈
        readySet (buildEdgeData dm targets).edges (order.take i) →
      r ∈ readySet (buildEdgeData dm targets).edges (order.take i) →
      keyLt (emptyLabel, 0) (compareKey G (buildEdgeData dm targets).nv r) →
      ∀ j (hj : j < order.length), order[j] = r →
        ∃ k, k < j ∧ ∃ hk : k < order.length,
          order[k] = (buildEdgeData dm targets).dummyIdx := by
  obtain ⟨hnvnd, hdumm, hdidx, _, _, _⟩ := buildEdgeData_spec dm targets
  have hkey : compareKey G (buildEdgeData dm targets).nv
      (buildEdgeData dm targets).dummyIdx = (emptyLabel, 0) := by
    unfold compareKey
    rw [hdidx, (idxOfG_getElem hdumm).2]
  refine ⟨hkey, ?_⟩
  intro i r hd hr hlt j hj hjg
  exact kahn_strict_first hord hd hr (by rw [hkey]; exact hlt) j hj hjg

/-- Witness for C7 (amended): with A=0 labelled "a" the root's key is
strictly smaller, and the root node 2 is indeed placed before A's node. -/
theorem claim7_witness :
    buildDeps GLab [] 20 [1] = some [(1, [0]), (0, [])] ∧
    (buildEdgeData [(1, [0]), (0, [])] [1]).dummyIdx = 2 ∧
    lexTopoSort (buildEdgeData [(1, [0]), (0, [])] [1]).edges
      (compareKey GLab (buildEdgeData [(1, [0]), (0, [])] [1]).nv) =
      some [2, 0, 1] ∧
    (2 ∈ readySet (buildEdgeData [(1, [0]), (0, [])] [1]).edges
      (([2, 0, 1] : List Nat).take 0)) ∧
    (0 ∈ readySet (buildEdgeData [(1, [0]), (0, [])] [1]).edges
      (([2, 0, 1] : List Nat).take 0)) ∧
    keyLt (emptyLabel, 0)
      (compareKey GLab (buildEdgeData [(1, [0]), (0, [])] [1]).nv 0) ∧
    (compareKey GLab (buildEdgeData [(1, [0]), (0, [])] [1]).nv
      (buildEdgeData [(1, [0]), (0, [])] [1]).dummyIdx = (emptyLabel, 0) ∧
    ∃ k, k < 1 ∧ ∃ hk : k < ([2, 0, 1] : List Nat).length,
      ([2, 0, 1] : List Nat)[k] =
        (buildEdgeData [(1, [0]), (0, [])] [1]).dummyIdx) := by
  have happ := claim7_root_min_key (G := GLab)
    (by decide :
      lexTopoSort (buildEdgeData [(1, [0]), (0, [])] [1]).edges
        (compareKey GLab (buildEdgeData [(1, [0]), (0, [])] [1]).nv) =
        some [2, 0, 1])
  refine ⟨by decide, by decide, by decide, by decide, by decide, by decide,
    happ.1, happ.2 0 0 (by decide) (by decide) (by decide) 1 (by decide)
      (by decide)⟩

/-- Counterexample to C8 as stated: a single scheduled task 0 that is a
target and has no consumer gets its own index 0 as last-use, and its stored
value is evicted right after it is produced even though it is a target (it
is still yielded first): the final store is empty while the pair was
emitted. -/
theorem claim8_counterexample :
    buildDeps GLeaf [] 20 [0] = some [(0, [])] ∧
    scheduleOf GLeaf [0] [] [(0, [])] = some [0] ∧
    (0 ∈ ([0] : List Nat)) ∧
    luFun [0] (depsOfDM [(0, [])]) [] 0 = some 0 ∧
    runMain GLeaf [0] [] [(0, [])] [0] =
      Except.ok (ExecState.mk [] [(0, 42)]) := by decide

/-- Claim C8 (amended): a scheduled task that no scheduled task consumes is
assigned its own schedule index as its last-use, and its stored value is
absent from the store right after its own step completes, whether or not it
is a target; if it is a target, its pair is emitted before that eviction. -/
theorem claim8_no_consumer_last_use {V : Type} {G : TaskGraph V}
    {targets cached : List Nat} {fuel : Nat} {dm : List (Nat × List Nat)}
    {sched : List Nat} {cachedVals : List (Nat × V)}
    (hck : cached = cachedVals.map Prod.fst)
    (hdm : buildDeps G cached fuel targets = some dm)
    (hs : scheduleOf G targets cached dm = some sched)
    {i : Nat} (hi : i < sched.length)
    (hnoc : ∀ k (hk : k < sched.length), sched[i] ∉ depsOfDM dm sched[k]) :
    luFun sched (depsOfDM dm) cached sched[i] = some i ∧
    ∃ st, runUpTo G targets cachedVals dm sched (i + 1) = Except.ok st ∧
      lookupA st.values sched[i] = none ∧
      (sched[i] ∈ targets → sched[i] ∈ st.emitted.map Prod.fst) := by
  obtain ⟨hnd, hsmem, _⟩ := scheduleOf_spec hdm hs
  obtain ⟨m, hm1, hm2, hm3⟩ :=
    @luFun_ge_of_prop sched (depsOfDM dm) cached sched[i] i hi
      (luProp_self hi)
  have hmi : m = i := by
    have hpm := (luFun_max hm1 hm3).1
    unfold luProp at hpm
    rcases Bool.or_eq_true_iff.mp hpm with h1 | h2
    · exact absurd (of_decide_eq_true h1)
        (by rw [getD_of_lt hm3]; exact hnoc m hm3)
    · have h3 := of_decide_eq_true h2
      rw [getD_of_lt hm3] at h3
      exact nodup_getElem?_inj hnd
        (by rw [List.getElem?_eq_getElem hm3, h3])
        (by rw [List.getElem?_eq_getElem hi])
  rw [hmi] at hm1
  obtain ⟨st, hok, hchar, hemit⟩ := runUpTo_char hck hdm hs (i + 1)
    (by omega)
  refine ⟨hm1, st, hok, ?_, ?_⟩
  · refine Option.not_isSome_iff_eq_none.mp ?_
    rw [hchar sched[i]]
    rintro ⟨_, h2⟩
    rcases h2 with h0 | ⟨m2, hm2eq, hle⟩
    · omega
    · rw [hm1] at hm2eq
      injection hm2eq with he
      omega
  · intro htg
    rw [hemit, List.mem_filter]
    exact ⟨(nodup_mem_take hnd hi).mpr (by omega), decide_eq_true htg⟩

/-- Witness for C8 (amended): the single leaf target. -/
theorem claim8_witness :
    ([] : List Nat) = (([] : List (Nat × Nat)).map Prod.fst) ∧
    buildDeps GLeaf [] 20 [0] = some [(0, [])] ∧
    scheduleOf GLeaf [0] [] [(0, [])] = some [0] ∧
    (∀ k (hk : k < ([0] : List Nat).length),
      (([0] : List Nat)[0]) ∉ depsOfDM [(0, [])] (([0] : List Nat)[k])) ∧
    (luFun [0] (depsOfDM [(0, [])]) [] (([0] : List Nat)[0]) = some 0 ∧
      ∃ st, runUpTo GLeaf [0] [] [(0, [])] [0] (0 + 1) = Except.ok st ∧
        lookupA st.values (([0] : List Nat)[0]) = none ∧
        ((([0] : List Nat)[0]) ∈ [0] →
          (([0] : List Nat)[0]) ∈ st.emitted.map Prod.fst)) :=
  ⟨rfl, by decide, by decide, by decide,
    claim8_no_consumer_last_use
      (List.map_nil.symm :
        ([] : List Nat) = List.map Prod.fst ([] : List (Nat × Nat)))
      (by decide : buildDeps GLeaf [] 20 [0] = some [(0, [])])
      (by decide : scheduleOf GLeaf [0] [] [(0, [])] = some [0])
      (by decide : 0 < ([0] : List Nat).length)
      (by decide : ∀ k (hk : k < ([0] : List Nat).length),
        (([0] : List Nat)[0]) ∉ depsOfDM [(0, [])] (([0] : List Nat)[k]))⟩

/-- Claim C9: whenever the schedule and dependency map come from the
Executor's own construction, every task's declared dependencies are present
in the store at the moment the task is about to run (the lookup cannot
fail), and the whole run completes without error; on a store where a
dependency is absent, the step aborts immediately with the fatal
missing-value error, as the corrupted schedule [1, 0, 2, 3] for the chain
shows. -/
theorem claim9_deps_present {V : Type} {G : TaskGraph V}
    {targets cached : List Nat} {fuel : Nat} {dm : List (Nat × List Nat)}
    {sched : List Nat} {cachedVals : List (Nat × V)}
    (hck : cached = cachedVals.map Prod.fst)
    (hdm : buildDeps G cached fuel targets = some dm)
    (hs : scheduleOf G targets cached dm = some sched) :
    (∀ i (hi : i < sched.length), ∃ st,
      runUpTo G targets cachedVals dm sched i = Except.ok st ∧
      ∀ p ∈ G.args sched[i], (lookupA st.values p.2).isSome) ∧
    (∃ stFin, runMain G targets cachedVals dm sched = Except.ok stFin) ∧
    runMain GChain [3] [] [(3, [2]), (2, [1]), (1, [0]), (0, [])]
      [1, 0, 2, 3] = Except.error (RunErr.missingValue 0) := by
  refine ⟨runUpTo_deps_present hck hdm hs, ?_, by decide⟩
  obtain ⟨st, hok, _, _⟩ := runUpTo_char hck hdm hs sched.length (le_refl _)
  exact ⟨st, by rw [runMain_eq_runUpTo]; exact hok⟩

/-- Witness for C9: the four-task chain; at step 3 the dependency of D is
present, and the run completes. -/
theorem claim9_witness :
    ([] : List Nat) = (([] : List (Nat × Nat)).map Prod.fst) ∧
    buildDeps GChain [] 20 [3] = some [(3, [2]), (2, [1]), (1, [0]), (0, [])] ∧
    scheduleOf GChain [3] [] [(3, [2]), (2, [1]), (1, [0]), (0, [])] =
      some [0, 1, 2, 3] ∧
    ((∀ i (hi : i < ([0, 1, 2, 3] : List Nat).length), ∃ st,
      runUpTo GChain [3] [] [(3, [2]), (2, [1]), (1, [0]), (0, [])]
        [0, 1, 2, 3] i = Except.ok st ∧
      ∀ p ∈ GChain.args (([0, 1, 2, 3] : List Nat)[i]),
        (lookupA st.values p.2).isSome) ∧
    (∃ stFin, runMain GChain [3] [] [(3, [2]), (2, [1]), (1, [0]), (0, [])]
      [0, 1, 2, 3] = Except.ok stFin) ∧
    runMain GChain [3] [] [(3, [2]), (2, [1]), (1, [0]), (0, [])]
      [1, 0, 2, 3] = Except.error (RunErr.missingValue 0)) :=
  ⟨rfl, by decide, by decide,
    claim9_deps_present rfl
      (by decide :
        buildDeps GChain [] 20 [3] =
          some [(3, [2]), (2, [1]), (1, [0]), (0, [])])
      (by decide)⟩

/-- Claim C10: the run works on a local copy of the cached values (the
initial store is exactly the supplied mapping, which itself is never
modified); a cached value consumed by at least one scheduled task has its
last consumer at its last-use index `m` and stays in the store exactly
through the end of step `m`, while a cached value consumed by no scheduled
task (last-use the schedule length plus one) is present after every step of
the run. -/
theorem claim10_cached_lifetime {V : Type} {G : TaskGraph V}
    {targets cached : List Nat} {fuel : Nat} {dm : List (Nat × List Nat)}
    {sched : List Nat} {cachedVals : List (Nat × V)}
    (hck : cached = cachedVals.map Prod.fst)
    (hdm : buildDeps G cached fuel targets = some dm)
    (hs : scheduleOf G targets cached dm = some sched)
    {k : Nat} (hkc : k ∈ cached) :
    (runUpTo G targets cachedVals dm sched 0 =
        Except.ok (initState cachedVals) ∧
      (initState cachedVals).values = cachedVals) ∧
    (∀ m, luFun sched (depsOfDM dm) cached k = some m → m < sched.length →
      k ∈ depsOfDM dm (sched.getD m 0) ∧
      ∀ j, j ≤ sched.length → ∃ st,
        runUpTo G targets cachedVals dm sched j = Except.ok st ∧
        ((lookupA st.values k).isSome ↔ j ≤ m)) ∧
    (luFun sched (depsOfDM dm) cached k = some (sched.length + 1) →
      ∀ j, j ≤ sched.length → ∃ st,
        runUpTo G targets cachedVals dm sched j = Except.ok st ∧
        (lookupA st.values k).isSome) := by
  obtain ⟨hnd, hsmem, _⟩ := scheduleOf_spec hdm hs
  refine ⟨⟨rfl, rfl⟩, ?_, ?_⟩
  · intro m hm hmlen
    have hpm := (luFun_max hm hmlen).1
    unfold luProp at hpm
    have hdep : k ∈ depsOfDM dm (sched.getD m 0) := by
      rcases Bool.or_eq_true_iff.mp hpm with h1 | h2
      · exact of_decide_eq_true h1
      · exfalso
        have h3 := of_decide_eq_true h2
        rw [getD_of_lt hmlen] at h3
        have hms : sched[m] ∈ sched := List.getElem_mem hmlen
        rw [h3] at hms
        exact ((hsmem k).mp hms).2 hkc
    refine ⟨hdep, ?_⟩
    intro j hj
    obtain ⟨st, hok, hchar, _⟩ := runUpTo_char hck hdm hs j hj
    refine ⟨st, hok, ?_⟩
    rw [hchar k]
    constructor
    · rintro ⟨_, h2⟩
      rcases h2 with h0 | ⟨m2, hm2, hle⟩
      · omega
      · rw [hm] at hm2
        injection hm2 with he
        omega
    · intro hjm
      exact ⟨Or.inl hkc, Or.inr ⟨m, hm, hjm⟩⟩
  · intro hm j hj
    obtain ⟨st, hok, hchar, _⟩ := runUpTo_char hck hdm hs j hj
    refine ⟨st, hok, ?_⟩
    rw [hchar k]
    exact ⟨Or.inl hkc, Or.inr ⟨sched.length + 1, hm, by omega⟩⟩

/-- Witness for C10: cached A=0 is consumed by the single scheduled task
and is gone after step 1; cached E=4 is consumed by nothing and survives
the whole run. -/
theorem claim10_witness :
    ([0, 4] : List Nat) = List.map Prod.fst [(0, 5), (4, 9)] ∧
    buildDeps GCachedGraph [0, 4] 20 [1] = some [(1, [0]), (0, [])] ∧
    scheduleOf GCachedGraph [1] [0, 4] [(1, [0]), (0, [])] = some [1] ∧
    (0 ∈ ([0, 4] : List Nat)) ∧ (4 ∈ ([0, 4] : List Nat)) ∧
    luFun [1] (depsOfDM [(1, [0]), (0, [])]) [0, 4] 0 = some 0 ∧
    luFun [1] (depsOfDM [(1, [0]), (0, [])]) [0, 4] 4 = some 2 ∧
    (∃ st, runUpTo GCachedGraph [1] [(0, 5), (4, 9)] [(1, [0]), (0, [])]
        [1] 1 = Except.ok st ∧
      ((lookupA st.values 0).isSome ↔ 1 ≤ 0)) ∧
    (∃ st, runUpTo GCachedGraph [1] [(0, 5), (4, 9)] [(1, [0]), (0, [])]
        [1] 1 = Except.ok st ∧
      (lookupA st.values 4).isSome) :=
  ⟨rfl, by decide, by decide, by decide, by decide, by decide, by decide,
    ((claim10_cached_lifetime rfl
      (by decide : buildDeps GCachedGraph [0, 4] 20 [1] =
        some [(1, [0]), (0, [])])
      (by decide) (by decide : (0 : Nat) ∈ [0, 4])).2.1 0 (by decide)
      (by decide)).2 1 (by decide),
    (claim10_cached_lifetime rfl
      (by decide : buildDeps GCachedGraph [0, 4] 20 [1] =
        some [(1, [0]), (0, [])])
      (by decide) (by decide : (4 : Nat) ∈ [0, 4])).2.2 (by decide) 1
      (by decide)⟩

end Mergekit
